import Mathlib

/-!
Verification development for the rendering and navigation core of the
moor terminal pager.  The Go sources under internal/search.go and
internal/screenLines.go (pager search engine, viewport decoration, and the
twin terminal I/O engine) are shallowly embedded below: pure Go functions
become Lean functions over lists and naturals, Go ints become Int where
negative values can occur, Go slice operations that can panic become
Option-valued, and external collaborators (the line store, the regexp
matcher, the rune-width table, the key-code table, the SGR style
serializer) become explicit parameters.
-/

namespace Moor

/-! ## Terminal background color response parsing (twin, screenLines.go)

Embeds parseTerminalBgColorResponse together with the helpers it uses:
Go strings are modelled as List Char (all relevant bytes are ASCII),
strings.HasPrefix / TrimPrefix / HasSuffix / TrimSuffix as the
corresponding list operations, and strconv.ParseUint(s, 16, 16) as a hex
parser that fails on empty input, on a non-hex digit, or on overflow
past 16 bits. -/

/-- Color24 mirrors the result of twin.NewColor24Bit: one 8-bit value per
channel. -/
structure Color24 where
  red : Nat
  green : Nat
  blue : Nat
deriving DecidableEq, Repr

/-- Go strings.TrimPrefix: drop the prefix when present, otherwise return
the string unchanged. -/
def goTrimPfx (s pre : List Char) : List Char :=
  if pre.isPrefixOf s then s.drop pre.length else s

/-- Go strings.TrimSuffix: drop the suffix when present, otherwise return
the string unchanged. -/
def goTrimSuffix (s suf : List Char) : List Char :=
  if suf.isSuffixOf s then s.take (s.length - suf.length) else s

/-- Value of one hexadecimal digit, none for a non-hex character. -/
def hexDigitVal (c : Char) : Option Nat :=
  if '0' ≤ c ∧ c ≤ '9' then some (c.toNat - '0'.toNat)
  else if 'a' ≤ c ∧ c ≤ 'f' then some (c.toNat - 'a'.toNat + 10)
  else if 'A' ≤ c ∧ c ≤ 'F' then some (c.toNat - 'A'.toNat + 10)
  else none

/-- Embeds strconv.ParseUint(s, 16, 16): errors (none) on an empty string,
on any non-hex character, and on values not fitting in 16 bits. -/
def parseUintHex16 (s : List Char) : Option Nat :=
  if s.isEmpty then none
  else
    (s.foldlM (fun acc c => (hexDigitVal c).map (fun d => acc * 16 + d)) 0).bind
      (fun v => if v < 65536 then some v else none)

/-- The OSC 11 response header ESC]11;rgb: from parseTerminalBgColorResponse. -/
def bgColorHeader : List Char := "\x1b]11;rgb:".data

/-- Response terminator BEL. -/
def bgColorSuffix1 : List Char := "\x07".data

/-- Response terminator ST (ESC backslash). -/
def bgColorSuffix2 : List Char := "\x1b\\".data

/-- Embeds parseTerminalBgColorResponse from screenLines.go.  Returns the
pair (color, valid): (some c, true) for a complete well-formed response,
(none, true) for an incomplete-but-so-far-valid response, and
(none, false) for an invalid one. -/
def parseTerminalBgColorResponse (responseBytes : List Char) : Option Color24 × Bool :=
  let sampleResponse1 := bgColorHeader ++ "0000/0000/0000".data ++ bgColorSuffix1
  let sampleResponse2 := bgColorHeader ++ "0000/0000/0000".data ++ bgColorSuffix2
  let response := responseBytes
  if ¬ (bgColorHeader.isPrefixOf response) then (none, false)
  else
    let response := goTrimPfx response bgColorHeader
    let isComplete := bgColorSuffix1.isSuffixOf response ∨ bgColorSuffix2.isSuffixOf response
    if ¬ isComplete ∧ (responseBytes.length < sampleResponse1.length ∨
        responseBytes.length < sampleResponse2.length) then
      (none, true)
    else if ¬ isComplete then (none, false)
    else
      let response := goTrimSuffix response bgColorSuffix1
      let response := goTrimSuffix response bgColorSuffix2
      if response.length ≠ 14 then (none, false)
      else
        match parseUintHex16 ((response.drop 0).take 4) with
        | none => (none, false)
        | some red =>
          match parseUintHex16 ((response.drop 5).take 4) with
          | none => (none, false)
          | some green =>
            match parseUintHex16 ((response.drop 10).take 4) with
            | none => (none, false)
            | some blue =>
              (some ⟨red / 256, green / 256, blue / 256⟩, true)

/-- The sample response from the spec's background-color test. -/
def bgSampleFull : List Char := "\x1b]11;rgb:1234/5678/9abc\x07".data

/-! ## Input event decoding (twin, screenLines.go)

Embeds consumeEncodedEvent together with the mouse-event regular
expression.  The escape-sequence-to-key-code table lives in a twin source
file outside the excerpt, so it is passed in as an explicit association
list; the Go code iterates a map in unspecified order, which the theorems
neutralize by assuming no table entry matches. -/

/-- Key codes produced by the decoder.  Escape and Enter appear literally
in consumeEncodedEvent; the arrow keys stand in for the key-code table. -/
inductive KeyCode where
  | escape
  | enter
  | up
  | down
  | right
  | left
deriving DecidableEq, Repr

/-- Mouse wheel directions handled by consumeEncodedEvent. -/
inductive MouseButton where
  | wheelUp
  | wheelDown
deriving DecidableEq, Repr

/-- Events produced by the decoder: EventKeyCode, EventMouse and EventRune. -/
inductive Event where
  | keyCode (k : KeyCode)
  | mouse (buttons : MouseButton)
  | rune (r : Char)
deriving DecidableEq, Repr

/-- Modelled from the spec: the escapeSequenceToKeyCode table (twin's
keys.go is outside the excerpt).  The spec lists decoded key codes for
arrows among others; every entry is an ESC-led sequence of at least two
bytes.  Used only to instantiate theorems that hold for any such table. -/
def escSequenceToKeyCode : List (List Char × KeyCode) :=
  [("\x1b[A".data, .up), ("\x1b[B".data, .down),
   ("\x1b[C".data, .right), ("\x1b[D".data, .left)]

/-- Embeds mouseEventRegex, the anchored pattern
ESC [ < digits ; digits ; digits M.  Returns the full match together with
the first capture group (the button number), or none when the input does
not start with a mouse event.  The character classes of consecutive
regex pieces are disjoint, so greedy matching is takeWhile. -/
def mouseEventMatch (s : List Char) : Option (List Char × List Char) :=
  if ("\x1b[<".data).isPrefixOf s then
    let rest := s.drop 3
    let d1 := rest.takeWhile (·.isDigit)
    let rest1 := rest.dropWhile (·.isDigit)
    if d1.isEmpty then none
    else
      match rest1 with
      | ';' :: rest2 =>
        let d2 := rest2.takeWhile (·.isDigit)
        let rest3 := rest2.dropWhile (·.isDigit)
        if d2.isEmpty then none
        else
          match rest3 with
          | ';' :: rest4 =>
            let d3 := rest4.takeWhile (·.isDigit)
            let rest5 := rest4.dropWhile (·.isDigit)
            if d3.isEmpty then none
            else
              match rest5 with
              | 'M' :: _ =>
                some ("\x1b[<".data ++ d1 ++ [';'] ++ d2 ++ [';'] ++ d3 ++ ['M'], d1)
              | _ => none
          | _ => none
      | _ => none
  else none

/-- Embeds consumeEncodedEvent from screenLines.go: try the key-code
table first, then the mouse-event pattern (button 64 wheel up, 65 wheel
down, anything else dropped with the whole buffer), then single-rune
decoding where a lone ESC becomes the Escape key code, an ESC followed by
more input discards the whole buffer, carriage return becomes Enter and
any other rune is reported literally. -/
def consumeEncodedEvent (table : List (List Char × KeyCode))
    (encodedEventSequences : List Char) : Option Event × List Char :=
  match table.find? (fun e => e.1.isPrefixOf encodedEventSequences) with
  | some (seq, k) => (some (.keyCode k), encodedEventSequences.drop seq.length)
  | none =>
    match mouseEventMatch encodedEventSequences with
    | some (fullMatch, g1) =>
      if g1 = "64".data then
        (some (.mouse .wheelUp), encodedEventSequences.drop fullMatch.length)
      else if g1 = "65".data then
        (some (.mouse .wheelDown), encodedEventSequences.drop fullMatch.length)
      else (none, [])
    | none =>
      match encodedEventSequences with
      | [] => (none, [])
      | r :: rest =>
        if r = '\x1b' then
          if rest ≠ [] then (none, [])
          else (some (.keyCode .escape), rest)
        else if r = '\r' then (some (.keyCode .enter), rest)
        else (some (.rune r), rest)

/-- The wheel event sample from the spec: ESC [ < 6 5 ; 1 0 ; 5 M. -/
def mouse65Sample : List Char := "\x1b[<65;10;5M".data

example : consumeEncodedEvent escSequenceToKeyCode mouse65Sample
    = (some (.mouse .wheelDown), []) := by decide

example : consumeEncodedEvent escSequenceToKeyCode "\x1b".data
    = (some (.keyCode .escape), []) := by decide

example : consumeEncodedEvent escSequenceToKeyCode "\x1bQab".data = (none, []) := by decide

/-! ## Styled runes and the cell grid (twin, screenLines.go)

The twin Style and Color types live outside the excerpt; the spec
describes a style as foreground/background color plus attribute flags and
an optional hyperlink, and colors as default / 16-color / 256-color /
24-bit.  Rune display widths come from an external width table; the spec
fixes only that a width is 1 or 2, so the width function is passed in as
a parameter to everything that needs it. -/

/-- Modelled from the spec: a twin color is default, 16-color, 256-color
or 24-bit (twin's color module is outside the excerpt). -/
inductive GoColor where
  | default
  | c16 (n : Nat)
  | c256 (n : Nat)
  | rgb (r g b : Nat)
deriving DecidableEq, Repr

/-- Modelled from the spec: a twin style is foreground and background
color, an attribute bit set and an optional hyperlink target (twin's
style module is outside the excerpt).  Attribute bits are a Nat mask. -/
structure GoStyle where
  fg : GoColor := .default
  bg : GoColor := .default
  attrs : Nat := 0
  hyperlink : Option (List Char) := none
deriving DecidableEq, Repr

/-- The all-default style twin.StyleDefault. -/
def styleDefault : GoStyle := {}

/-- The AttrBold bit. -/
def attrBold : Nat := 1

/-- The AttrReverse bit. -/
def attrReverse : Nat := 2

/-- Attribute-mask membership, embedding attrs.has. -/
def GoStyle.hasAttr (s : GoStyle) (bit : Nat) : Bool :=
  s.attrs / bit % 2 = 1

/-- Style.WithBackground. -/
def GoStyle.withBackground (s : GoStyle) (c : GoColor) : GoStyle := { s with bg := c }

/-- Style.WithHyperlink. -/
def GoStyle.withHyperlink (s : GoStyle) (u : Option (List Char)) : GoStyle :=
  { s with hyperlink := u }

/-- A twin StyledRune: one rune plus its style. -/
structure StyledRune where
  r : Char
  style : GoStyle
deriving DecidableEq, Repr

/-- twin.NewStyledRune. -/
def newStyledRune (r : Char) (style : GoStyle) : StyledRune := ⟨r, style⟩

/-- The UnixScreen state that SetCell and Show read: the cached width and
height that Size() reports, and the cell grid. -/
structure UnixScreen where
  width : Nat
  height : Nat
  cells : List (List StyledRune)
deriving DecidableEq, Repr

/-- A screen whose grid actually has the dimensions Size() reports;
Go indexing would panic otherwise. -/
def UnixScreen.wellFormed (s : UnixScreen) : Prop :=
  s.cells.length = s.height ∧ ∀ row ∈ s.cells, row.length = s.width

/-- Write into a nested list at (row, column). -/
def setGrid (cells : List (List StyledRune)) (row column : Nat) (v : StyledRune) :
    List (List StyledRune) :=
  cells.set row ((cells.getD row []).set column v)

/-- Embeds UnixScreen.SetCell.  Go ints can be negative, so the position
is Int; w is the external rune-width table.  Returns the updated screen
together with SetCell's return value, which is always the width of the
given rune.  Out-of-bounds writes leave the grid untouched; a rune whose
width would cross the right screen edge is stored as a blank space in the
rune's style. -/
def setCell (w : Char → Nat) (screen : UnixScreen) (column row : Int)
    (styledRune : StyledRune) : UnixScreen × Nat :=
  if column < 0 then (screen, w styledRune.r)
  else if row < 0 then (screen, w styledRune.r)
  else if (screen.width : Int) ≤ column then (screen, w styledRune.r)
  else if (screen.height : Int) ≤ row then (screen, w styledRune.r)
  else if (screen.width : Int) < column + w styledRune.r then
    ({ screen with
        cells := setGrid screen.cells row.toNat column.toNat
          (newStyledRune ' ' styledRune.style) },
      w styledRune.r)
  else
    ({ screen with cells := setGrid screen.cells row.toNat column.toNat styledRune },
      w styledRune.r)

/-- Embeds withoutHiddenRunes: drop every cell that directly follows a
double-width cell.  The Go loop runs over indices; so does this. -/
def withoutHiddenRunes (w : Char → Nat) (runes : List StyledRune) : List StyledRune :=
  (List.range runes.length).filterMap fun i =>
    if 0 < i ∧ w ((runes.getD (i - 1) (newStyledRune ' ' styleDefault)).r) = 2 then none
    else runes[i]?

/-- Restates the spec sentence about hidden cells: walking the row with
its predecessor alongside, keep exactly the cells whose predecessor is
not double-width (the first cell has no predecessor and is kept). -/
def visibleCellsSpec (w : Char → Nat) (runes : List StyledRune) : List StyledRune :=
  ((runes.zip (none :: runes.map some)).filter fun p =>
    match p.2 with
    | none => true
    | some prev => w prev.r ≠ 2).map Prod.fst

/-! ## The parallel search engine (search.go)

The line store (reader.Reader) is an external collaborator and becomes a
List String: GetLine is list lookup and GetLineCount is the length.  The
compiled regexp is opaque to the search code, which only calls
MatchString, so a pattern becomes a function String → Bool.  A
linemetadata.Index becomes the Nat it wraps. -/

/-- Modelled from the spec: linemetadata.Index.NonWrappingAdd (the
linemetadata package is outside the excerpt).  LineIndex arithmetic is
saturating at zero: subtracting past zero clamps, never wraps. -/
def nonWrappingAdd (i : Nat) (delta : Int) : Nat :=
  ((i : Int) + delta).toNat

/-- Embeds the chunk worker _findFirstHit from search.go: scan
line-by-line from searchPosition, forwards or backwards, returning the
first position whose line matches, giving up on a missing line (past the
end of the store), at the top of the file when scanning backwards, or on
reaching the exclusive beforePosition after advancing. -/
def findFirstHitChunk (lines : List String) (pat : String → Bool)
    (searchPosition : Nat) (beforePosition : Option Nat) (backwards : Bool) :
    Option Nat :=
  match hget : lines[searchPosition]? with
  | none => none
  | some lineText =>
    if pat lineText then some searchPosition
    else if backwards then
      if hz : searchPosition = 0 then none
      else
        let next := searchPosition - 1
        if beforePosition = some next then none
        else findFirstHitChunk lines pat next beforePosition backwards
    else
      let next := searchPosition + 1
      if beforePosition = some next then none
      else findFirstHitChunk lines pat next beforePosition backwards
termination_by if backwards then searchPosition + 1 else lines.length + 1 - searchPosition
decreasing_by
  · simp only [if_pos ‹backwards = true›]
    omega
  · have hlt : searchPosition < lines.length := by
      by_contra hge
      rw [List.getElem?_eq_none (by omega)] at hget
      exact Option.noConfusion hget
    simp only [if_neg ‹¬ backwards = true›]
    omega

/-- Embeds findFirstHit from search.go: split the scan range into
chunkCount contiguous chunks (one per CPU, or a single chunk when the
range is smaller than the CPU count), run the chunk worker on each, and
return the first non-nil result in range order — which models the Go
code collecting channel results in range order regardless of the order
in which the goroutines finish.  numCPU stands for runtime.NumCPU() and
Go's truncating integer division is Int.tdiv. -/
def findFirstHit (lines : List String) (pat : String → Bool) (numCPU : Nat)
    (startPosition : Nat) (beforePosition : Option Nat) (backwards : Bool) :
    Option Nat :=
  let chunkCountCPU : Int := numCPU
  let linesCount : Int :=
    if backwards then
      match beforePosition with
      | none => (startPosition : Int) + 1
      | some b => (startPosition : Int) - (b : Int)
    else
      match beforePosition with
      | none => (lines.length : Int) - (startPosition : Int)
      | some b => (b : Int) - (startPosition : Int)
  let chunkCount : Int := if linesCount < chunkCountCPU then 1 else chunkCountCPU
  let chunkSize : Int := linesCount.tdiv chunkCount
  let direction : Int := if backwards then -1 else 1
  let searchStarts : List Nat :=
    (List.range chunkCount.toNat).map fun (i : Nat) =>
      nonWrappingAdd startPosition ((i : Int) * direction * chunkSize)
  let chunkResults : List (Option Nat) :=
    (List.range chunkCount.toNat).map fun i =>
      let chunkBefore : Option Nat :=
        match searchStarts[i + 1]? with
        | some nextStart => some nextStart
        | none => beforePosition
      match searchStarts[i]? with
      | some searchStart => findFirstHitChunk lines pat searchStart chunkBefore backwards
      | none => none
  chunkResults.findSome? id

/-- True when position n matches the pattern: the line exists and its
plain text matches. -/
def matchAt (lines : List String) (pat : String → Bool) (n : Nat) : Bool :=
  match lines[n]? with
  | some s => pat s
  | none => false

/-- True when position n is on the scanning side of the exclusive bound. -/
def beforeOk (beforePosition : Option Nat) (backwards : Bool) (n : Nat) : Bool :=
  match beforePosition with
  | none => true
  | some b => if backwards then decide (b < n) else decide (n < b)

/-- Restates the search contract from the spec: scanning forward, the
smallest matching index at or after the start (and strictly below the
exclusive bound); scanning backward, the largest matching index at or
before the start (and strictly above the exclusive bound); none when no
line in that range matches. -/
def findFirstHitSpec (lines : List String) (pat : String → Bool)
    (startPosition : Nat) (beforePosition : Option Nat) (backwards : Bool) :
    Option Nat :=
  if backwards then
    ((List.range (startPosition + 1)).reverse).find? fun n =>
      beforeOk beforePosition true n && matchAt lines pat n
  else
    (List.range lines.length).find? fun n =>
      decide (startPosition ≤ n) && beforeOk beforePosition false n && matchAt lines pat n

/-- Unfolding equation for the chunk worker with a non-dependent match,
convenient for both evaluation and induction. -/
theorem findFirstHitChunk_eq (lines : List String) (pat : String → Bool) (pos : Nat)
    (bp : Option Nat) (bw : Bool) :
    findFirstHitChunk lines pat pos bp bw =
      match lines[pos]? with
      | none => none
      | some lineText =>
        if pat lineText then some pos
        else if bw then
          if pos = 0 then none
          else if bp = some (pos - 1) then none
          else findFirstHitChunk lines pat (pos - 1) bp bw
        else
          if bp = some (pos + 1) then none
          else findFirstHitChunk lines pat (pos + 1) bp bw := by
  rw [findFirstHitChunk]
  rcases hget : lines[pos]? with _ | t <;> simp

/-- The pattern used by the spec's concrete search examples. -/
def patX : String → Bool := fun s => s == "xb" || s == "xd"

set_option maxRecDepth 8000 in
example : findFirstHit ["a", "xb", "c", "xd", "e"] patX 2 0 none false = some 1 := by
  simp [findFirstHit, findFirstHitChunk_eq, patX, nonWrappingAdd, List.range_succ, Int.tdiv]

set_option maxRecDepth 8000 in
example : findFirstHit ["a", "xb", "c", "xd", "e"] patX 2 2 none false = some 3 := by
  simp [findFirstHit, findFirstHitChunk_eq, patX, nonWrappingAdd, List.range_succ, Int.tdiv]

set_option maxRecDepth 8000 in
example : findFirstHit ["xb", "c"] patX 2 0 (some 0) false = some 0 := by
  simp [findFirstHit, findFirstHitChunk_eq, patX, nonWrappingAdd, List.range_succ, Int.tdiv]

example : findFirstHitSpec ["xb", "c"] patX 0 (some 0) false = none := by
  simp [findFirstHitSpec, beforeOk, matchAt, patX, List.range_succ]

/-! ### Characterizing the first hit of an ascending or descending scan -/

/-- Finding inside an ascending run of indices returns the least
satisfying index. -/
theorem find?_range'_eq_some (p : Nat → Bool) (a n m : Nat) :
    (List.range' a n).find? p = some m ↔
      a ≤ m ∧ m < a + n ∧ p m = true ∧ ∀ j, a ≤ j → j < m → p j = false := by
  induction n generalizing a with
  | zero =>
    rw [List.range'_zero]
    simp only [List.find?_nil]
    constructor
    · intro h
      exact Option.noConfusion h
    · rintro ⟨h1, h2, h3, h4⟩
      omega
  | succ n ih =>
    rw [List.range'_succ, List.find?_cons]
    rcases hp : p a with _ | _
    · simp only [cond_false, ih (a + 1)]
      constructor
      · rintro ⟨h1, h2, h3, h4⟩
        refine ⟨by omega, by omega, h3, fun j hj1 hj2 => ?_⟩
        rcases Nat.eq_or_lt_of_le hj1 with rfl | hlt
        · exact hp
        · exact h4 j hlt hj2
      · rintro ⟨h1, h2, h3, h4⟩
        have hma : m ≠ a := by
          rintro rfl
          rw [hp] at h3
          exact Bool.noConfusion h3
        exact ⟨by omega, by omega, h3, fun j hj1 hj2 => h4 j (by omega) hj2⟩
    · simp only [cond_true, Option.some_inj]
      constructor
      · rintro rfl
        exact ⟨Nat.le_refl a, by omega, hp, fun j hj1 hj2 => by omega⟩
      · rintro ⟨h1, h2, h3, h4⟩
        rcases Nat.eq_or_lt_of_le h1 with rfl | hlt
        · rfl
        · have := h4 a (Nat.le_refl a) hlt
          rw [hp] at this
          exact Bool.noConfusion this

/-- Finding inside an ascending run of indices fails exactly when no
index satisfies the predicate. -/
theorem find?_range'_eq_none (p : Nat → Bool) (a n : Nat) :
    (List.range' a n).find? p = none ↔ ∀ j, a ≤ j → j < a + n → p j = false := by
  rw [List.find?_eq_none]
  constructor
  · intro h j hj1 hj2
    have := h j (by rw [List.mem_range'_1]; omega)
    rcases hp : p j with _ | _
    · rfl
    · exact absurd hp this
  · intro h x hx
    rw [List.mem_range'_1] at hx
    simp [h x (by omega) (by omega)]

/-- The descending scan list used by the backward search contract. -/
theorem descRange_succ (s : Nat) :
    (List.range (s + 2)).reverse = (s + 1) :: (List.range (s + 1)).reverse := by
  rw [List.range_succ, List.reverse_append]
  rfl

/-- Finding inside a descending run of indices returns the greatest
satisfying index. -/
theorem find?_descRange_eq_some (p : Nat → Bool) (s m : Nat) :
    ((List.range (s + 1)).reverse).find? p = some m ↔
      m ≤ s ∧ p m = true ∧ ∀ j, m < j → j ≤ s → p j = false := by
  induction s with
  | zero =>
    rw [show List.range 1 = [0] from rfl]
    simp only [List.reverse_singleton, List.find?_singleton]
    rcases hp : p 0 with _ | _
    · rw [if_neg (by simp)]
      constructor
      · intro h
        exact Option.noConfusion h
      · rintro ⟨h1, h2, h3⟩
        have hm : m = 0 := by omega
        subst hm
        rw [hp] at h2
        exact Bool.noConfusion h2
    · rw [if_pos rfl]
      rw [Option.some_inj]
      constructor
      · rintro rfl
        exact ⟨Nat.le_refl 0, hp, fun j hj1 hj2 => by omega⟩
      · rintro ⟨h1, h2, h3⟩
        omega
  | succ s ih =>
    rw [descRange_succ, List.find?_cons]
    rcases hp : p (s + 1) with _ | _
    · simp only [cond_false, ih]
      constructor
      · rintro ⟨h1, h2, h3⟩
        refine ⟨by omega, h2, fun j hj1 hj2 => ?_⟩
        rcases Nat.eq_or_lt_of_le hj2 with rfl | hlt
        · exact hp
        · exact h3 j hj1 (by omega)
      · rintro ⟨h1, h2, h3⟩
        have hms : m ≠ s + 1 := by
          rintro rfl
          rw [hp] at h2
          exact Bool.noConfusion h2
        exact ⟨by omega, h2, fun j hj1 hj2 => h3 j hj1 (by omega)⟩
    · simp only [cond_true, Option.some_inj]
      constructor
      · rintro rfl
        exact ⟨Nat.le_refl _, hp, fun j hj1 hj2 => by omega⟩
      · rintro ⟨h1, h2, h3⟩
        rcases Nat.eq_or_lt_of_le h1 with rfl | hlt
        · rfl
        · have := h3 (s + 1) (by omega) (Nat.le_refl _)
          rw [hp] at this
          exact Bool.noConfusion this

/-- Finding inside a descending run of indices fails exactly when no
index satisfies the predicate. -/
theorem find?_descRange_eq_none (p : Nat → Bool) (s : Nat) :
    ((List.range (s + 1)).reverse).find? p = none ↔ ∀ j, j ≤ s → p j = false := by
  rw [List.find?_eq_none]
  constructor
  · intro h j hj
    have := h j (by simp [List.mem_reverse, List.mem_range]; omega)
    rcases hp : p j with _ | _
    · rfl
    · exact absurd hp this
  · intro h x hx
    rw [List.mem_reverse, List.mem_range] at hx
    simp [h x (by omega)]

/-! ### What a single forward chunk scan computes -/

/-- A forward chunk scan that returns a hit returns the least matching
index at or after its start and strictly before its exclusive bound. -/
theorem chunk_fwd_some (lines : List String) (pat : String → Bool) :
    ∀ k s bp m, lines.length - s ≤ k →
      (∀ b, bp = some b → s < b) →
      findFirstHitChunk lines pat s bp false = some m →
      s ≤ m ∧ m < lines.length ∧ (∀ b, bp = some b → m < b) ∧
        matchAt lines pat m = true ∧
        ∀ j, s ≤ j → j < m → matchAt lines pat j = false := by
  intro k
  induction k with
  | zero =>
    intro s bp m hk hb hc
    rw [findFirstHitChunk_eq, List.getElem?_eq_none (by omega)] at hc
    exact Option.noConfusion hc
  | succ k ih =>
    intro s bp m hk hb hc
    rw [findFirstHitChunk_eq] at hc
    rcases hget : lines[s]? with _ | t
    · rw [hget] at hc
      exact Option.noConfusion hc
    · rw [hget] at hc
      simp only [Bool.false_eq_true, if_false] at hc
      obtain ⟨hslen, hval⟩ := List.getElem?_eq_some.mp hget
      have hmatch : matchAt lines pat s = pat t := by
        rw [matchAt, hget]
      by_cases hpat : pat t
      · rw [if_pos hpat] at hc
        obtain rfl : s = m := Option.some_inj.mp hc
        exact ⟨Nat.le_refl s, hslen, hb, by rw [hmatch, hpat], fun j hj1 hj2 => by omega⟩
      · rw [if_neg hpat] at hc
        by_cases hbp : bp = some (s + 1)
        · rw [if_pos hbp] at hc
          exact Option.noConfusion hc
        · rw [if_neg hbp] at hc
          have hb' : ∀ b, bp = some b → s + 1 < b := by
            intro b hbb
            have := hb b hbb
            have : b ≠ s + 1 := fun h => hbp (hbb.trans (by rw [h]))
            omega
          obtain ⟨h1, h2, h3, h4, h5⟩ := ih (s + 1) bp m (by omega) hb' hc
          refine ⟨by omega, h2, h3, h4, fun j hj1 hj2 => ?_⟩
          rcases Nat.eq_or_lt_of_le hj1 with rfl | hlt
          · rw [hmatch]
            simp [hpat]
          · exact h5 j (by omega) hj2

/-- A forward chunk scan that reports no match saw no matching line
anywhere in its range. -/
theorem chunk_fwd_none (lines : List String) (pat : String → Bool) :
    ∀ k s bp, lines.length - s ≤ k →
      (∀ b, bp = some b → s < b) →
      findFirstHitChunk lines pat s bp false = none →
      ∀ j, s ≤ j → j < lines.length → (∀ b, bp = some b → j < b) →
        matchAt lines pat j = false := by
  intro k
  induction k with
  | zero =>
    intro s bp hk hb hc j hj1 hj2 hj3
    omega
  | succ k ih =>
    intro s bp hk hb hc j hj1 hj2 hj3
    rw [findFirstHitChunk_eq] at hc
    rcases hget : lines[s]? with _ | t
    · rw [List.getElem?_eq_none_iff] at hget
      omega
    · rw [hget] at hc
      simp only [Bool.false_eq_true, if_false] at hc
      have hmatch : matchAt lines pat s = pat t := by
        rw [matchAt, hget]
      by_cases hpat : pat t
      · rw [if_pos hpat] at hc
        exact Option.noConfusion hc
      · rw [if_neg hpat] at hc
        rcases Nat.eq_or_lt_of_le hj1 with rfl | hlt
        · rw [hmatch]
          simp [hpat]
        · by_cases hbp : bp = some (s + 1)
          · exfalso
            have := hj3 (s + 1) hbp
            omega
          · rw [if_neg hbp] at hc
            have hb' : ∀ b, bp = some b → s + 1 < b := by
              intro b hbb
              have := hb b hbb
              have : b ≠ s + 1 := fun h => hbp (hbb.trans (by rw [h]))
              omega
            exact ih (s + 1) bp (by omega) hb' hc j (by omega) hj2 hj3

/-- A single forward chunk scan computes exactly the forward search
contract. -/
theorem chunk_fwd_eq_spec (lines : List String) (pat : String → Bool)
    (s : Nat) (bp : Option Nat) (hb : ∀ b, bp = some b → s < b) :
    findFirstHitChunk lines pat s bp false = findFirstHitSpec lines pat s bp false := by
  have hrange : findFirstHitSpec lines pat s bp false
      = (List.range' 0 lines.length).find? fun n =>
          decide (s ≤ n) && beforeOk bp false n && matchAt lines pat n := by
    rw [findFirstHitSpec]
    simp [List.range_eq_range']
  rcases hc : findFirstHitChunk lines pat s bp false with _ | m
  · rw [hrange]
    symm
    rw [find?_range'_eq_none]
    intro j hj1 hj2
    by_cases hs : s ≤ j
    · rcases hbok : beforeOk bp false j with _ | _
      · simp [hbok]
      · have hjb : ∀ b, bp = some b → j < b := by
          intro b hbb
          rw [hbb, beforeOk] at hbok
          simpa using hbok
        have := chunk_fwd_none lines pat (lines.length - s) s bp (Nat.le_refl _) hb hc
          j hs (by omega) hjb
        simp [this]
    · simp [hs]
  · obtain ⟨h1, h2, h3, h4, h5⟩ :=
      chunk_fwd_some lines pat (lines.length - s) s bp m (Nat.le_refl _) hb hc
    rw [hrange]
    symm
    rw [find?_range'_eq_some]
    refine ⟨by omega, by omega, ?_, ?_⟩
    · have hbok : beforeOk bp false m = true := by
        rcases bp with _ | b
        · rfl
        · rw [beforeOk]
          simpa using h3 b rfl
      simp [h1, hbok, h4]
    · intro j hj0 hjm
      by_cases hs : s ≤ j
      · simp [h5 j hs hjm]
      · simp [hs]

/-! ### What a single backward chunk scan computes -/

/-- A backward chunk scan that returns a hit returns the greatest
matching index at or below its start and strictly above its exclusive
bound. -/
theorem chunk_bwd_some (lines : List String) (pat : String → Bool) :
    ∀ s bp m,
      (∀ b, bp = some b → b < s) →
      findFirstHitChunk lines pat s bp true = some m →
      m ≤ s ∧ m < lines.length ∧ (∀ b, bp = some b → b < m) ∧
        matchAt lines pat m = true ∧
        ∀ j, m < j → j ≤ s → matchAt lines pat j = false := by
  intro s
  induction s with
  | zero =>
    intro bp m hb hc
    rw [findFirstHitChunk_eq] at hc
    rcases hget : lines[0]? with _ | t
    · rw [hget] at hc
      exact Option.noConfusion hc
    · rw [hget] at hc
      simp only [if_pos rfl] at hc
      obtain ⟨hslen, hval⟩ := List.getElem?_eq_some.mp hget
      by_cases hpat : pat t
      · rw [if_pos hpat] at hc
        obtain rfl : (0 : Nat) = m := Option.some_inj.mp hc
        exact ⟨Nat.le_refl 0, hslen, hb, by simp [matchAt, hget, hpat],
          fun j hj1 hj2 => by omega⟩
      · rw [if_neg hpat] at hc
        exact Option.noConfusion hc
  | succ s ih =>
    intro bp m hb hc
    rw [findFirstHitChunk_eq] at hc
    rcases hget : lines[s + 1]? with _ | t
    · rw [hget] at hc
      exact Option.noConfusion hc
    · rw [hget] at hc
      simp only [Nat.succ_ne_zero, if_false, Nat.add_sub_cancel] at hc
      obtain ⟨hslen, hval⟩ := List.getElem?_eq_some.mp hget
      have hmatch : matchAt lines pat (s + 1) = pat t := by
        rw [matchAt, hget]
      by_cases hpat : pat t
      · rw [if_pos hpat] at hc
        obtain rfl : s + 1 = m := Option.some_inj.mp hc
        exact ⟨Nat.le_refl _, hslen, hb, by rw [hmatch, hpat], fun j hj1 hj2 => by omega⟩
      · rw [if_neg hpat] at hc
        by_cases hbp : bp = some s
        · rw [if_pos hbp] at hc
          exact Option.noConfusion hc
        · rw [if_neg hbp] at hc
          have hb' : ∀ b, bp = some b → b < s := by
            intro b hbb
            have := hb b hbb
            have : b ≠ s := fun h => hbp (hbb.trans (by rw [h]))
            omega
          obtain ⟨h1, h2, h3, h4, h5⟩ := ih bp m hb' hc
          refine ⟨by omega, h2, h3, h4, fun j hj1 hj2 => ?_⟩
          rcases Nat.eq_or_lt_of_le hj2 with rfl | hlt
          · rw [hmatch]
            simp [hpat]
          · exact h5 j hj1 (by omega)

/-- A backward chunk scan from inside the store that reports no match saw
no matching line anywhere in its range. -/
theorem chunk_bwd_none (lines : List String) (pat : String → Bool) :
    ∀ s bp,
      s < lines.length →
      (∀ b, bp = some b → b < s) →
      findFirstHitChunk lines pat s bp true = none →
      ∀ j, j ≤ s → (∀ b, bp = some b → b < j) →
        matchAt lines pat j = false := by
  intro s
  induction s with
  | zero =>
    intro bp hs hb hc j hj1 hj2
    obtain rfl : j = 0 := by omega
    rw [findFirstHitChunk_eq, List.getElem?_eq_getElem hs] at hc
    simp only [if_pos rfl] at hc
    by_cases hpat : pat lines[0]
    · rw [if_pos hpat] at hc
      exact Option.noConfusion hc
    · rw [matchAt, List.getElem?_eq_getElem hs]
      simp [hpat]
  | succ s ih =>
    intro bp hs hb hc j hj1 hj2
    rw [findFirstHitChunk_eq, List.getElem?_eq_getElem hs] at hc
    simp only [Nat.succ_ne_zero, if_false, Nat.add_sub_cancel] at hc
    have hmatch : matchAt lines pat (s + 1) = pat lines[s + 1] := by
      rw [matchAt, List.getElem?_eq_getElem hs]
    by_cases hpat : pat lines[s + 1]
    · rw [if_pos hpat] at hc
      exact Option.noConfusion hc
    · rw [if_neg hpat] at hc
      rcases Nat.eq_or_lt_of_le hj1 with rfl | hlt
      · rw [hmatch]
        simp [hpat]
      · by_cases hbp : bp = some s
        · exfalso
          have := hj2 s hbp
          omega
        · rw [if_neg hbp] at hc
          have hb' : ∀ b, bp = some b → b < s := by
            intro b hbb
            have := hb b hbb
            have : b ≠ s := fun h => hbp (hbb.trans (by rw [h]))
            omega
          exact ih bp (by omega) hb' hc j (by omega) hj2

/-- A single backward chunk scan from inside the store computes exactly
the backward search contract. -/
theorem chunk_bwd_eq_spec (lines : List String) (pat : String → Bool)
    (s : Nat) (bp : Option Nat) (hs : s < lines.length)
    (hb : ∀ b, bp = some b → b < s) :
    findFirstHitChunk lines pat s bp true = findFirstHitSpec lines pat s bp true := by
  have hrange : findFirstHitSpec lines pat s bp true
      = ((List.range (s + 1)).reverse).find? fun n =>
          beforeOk bp true n && matchAt lines pat n := by
    rw [findFirstHitSpec]
    simp
  rcases hc : findFirstHitChunk lines pat s bp true with _ | m
  · rw [hrange]
    symm
    rw [find?_descRange_eq_none]
    intro j hj
    rcases hbok : beforeOk bp true j with _ | _
    · simp [hbok]
    · have hjb : ∀ b, bp = some b → b < j := by
        intro b hbb
        rw [hbb, beforeOk] at hbok
        simpa using hbok
      have := chunk_bwd_none lines pat s bp hs hb hc j hj hjb
      simp [this]
  · obtain ⟨h1, h2, h3, h4, h5⟩ := chunk_bwd_some lines pat s bp m hb hc
    rw [hrange]
    symm
    rw [find?_descRange_eq_some]
    refine ⟨h1, ?_, ?_⟩
    · have hbok : beforeOk bp true m = true := by
        rcases bp with _ | b
        · rfl
        · rw [beforeOk]
          simpa using h3 b rfl
      simp [hbok, h4]
    · intro j hj1 hj2
      simp [h5 j hj1 hj2]

/-! ### Splitting one scan range into two consecutive chunks -/

/-- First-non-nil preference between two chunk results, as the Go
result-collection loop computes it. -/
def firstSome (a b : Option Nat) : Option Nat :=
  match a with
  | some r => some r
  | none => b

/-- A forward scan bounded below m followed by a forward scan from m
computes the same hit as the single combined scan. -/
theorem chunk_fwd_split (lines : List String) (pat : String → Bool) :
    ∀ k s m bp, m - s ≤ k → s < m → (∀ b, bp = some b → m < b) →
      findFirstHitChunk lines pat s bp false =
        firstSome (findFirstHitChunk lines pat s (some m) false)
          (findFirstHitChunk lines pat m bp false) := by
  intro k
  induction k with
  | zero =>
    intro s m bp hk hsm hb
    omega
  | succ k ih =>
    intro s m bp hk hsm hb
    rw [findFirstHitChunk_eq lines pat s bp false,
      findFirstHitChunk_eq lines pat s (some m) false]
    rcases hget : lines[s]? with _ | t
    · have hnone : findFirstHitChunk lines pat m bp false = none := by
        rw [findFirstHitChunk_eq, List.getElem?_eq_none]
        rw [List.getElem?_eq_none_iff] at hget
        omega
      simp [firstSome, hnone]
    · simp only [Bool.false_eq_true, if_false]
      by_cases hpat : pat t
      · rw [if_pos hpat, if_pos hpat]
        rfl
      · rw [if_neg hpat, if_neg hpat]
        have hbnot : ¬ bp = some (s + 1) := by
          intro h
          have := hb (s + 1) h
          omega
        rw [if_neg hbnot]
        by_cases hm : m = s + 1
        · subst hm
          rw [if_pos rfl]
          rfl
        · rw [if_neg (by simpa [eq_comm] using Ne.symm hm)]
          exact ih (s + 1) m bp (by omega) (by omega) hb

/-- A backward scan bounded above m followed by a backward scan from m
computes the same hit as the single combined scan.  The start must point
inside the store: a backward scan whose start is past the last line gives
up at once. -/
theorem chunk_bwd_split (lines : List String) (pat : String → Bool) :
    ∀ k s m bp, s - m ≤ k → m < s → s < lines.length → (∀ b, bp = some b → b < m) →
      findFirstHitChunk lines pat s bp true =
        firstSome (findFirstHitChunk lines pat s (some m) true)
          (findFirstHitChunk lines pat m bp true) := by
  intro k
  induction k with
  | zero =>
    intro s m bp hk hms hs hb
    omega
  | succ k ih =>
    intro s m bp hk hms hs hb
    rw [findFirstHitChunk_eq lines pat s bp true,
      findFirstHitChunk_eq lines pat s (some m) true]
    rw [List.getElem?_eq_getElem hs]
    simp only [if_pos rfl]
    by_cases hpat : pat lines[s]
    · rw [if_pos hpat, if_pos hpat]
      rfl
    · rw [if_neg hpat, if_neg hpat]
      have hszero : ¬ s = 0 := by omega
      rw [if_neg hszero, if_neg hszero]
      have hbnot : ¬ bp = some (s - 1) := by
        intro h
        have := hb (s - 1) h
        omega
      rw [if_neg hbnot]
      by_cases hm : m = s - 1
      · subst hm
        rw [if_pos rfl]
        rfl
      · rw [if_neg (fun hcon => hm (Option.some_inj.mp hcon))]
        exact ih (s - 1) m bp (by omega) (by omega) (by omega) hb

/-! ### Collecting chunk results in range order -/

/-- Scanning forward over chunk starts s, s+c, s+2c, ... and keeping the
first non-nil result in range order equals one combined forward scan. -/
theorem fold_fwd (lines : List String) (pat : String → Bool) :
    ∀ cc s csN bp, 1 ≤ csN → (∀ b, bp = some b → s + cc * csN < b) →
      ((List.range (cc + 1)).map fun i =>
          findFirstHitChunk lines pat (s + i * csN)
            (if i + 1 < cc + 1 then some (s + (i + 1) * csN) else bp) false).findSome? id
        = findFirstHitChunk lines pat s bp false := by
  intro cc
  induction cc with
  | zero =>
    intro s csN bp hcs hbp
    rw [show List.range 1 = [0] from rfl, List.map_cons, List.map_nil, List.findSome?_cons]
    rw [if_neg (by omega), show s + 0 * csN = s by ring]
    rcases hres : findFirstHitChunk lines pat s bp false with _ | m <;> simp [hres]
  | succ cc ih =>
    intro s csN bp hcs hbp
    have hx2 : (cc + 1) * csN = cc * csN + csN := by ring
    rw [List.range_succ_eq_map, List.map_cons, List.findSome?_cons, List.map_map]
    have hmap : List.map
        ((fun i =>
          findFirstHitChunk lines pat (s + i * csN)
            (if i + 1 < cc + 1 + 1 then some (s + (i + 1) * csN) else bp) false) ∘ Nat.succ)
        (List.range (cc + 1))
        = List.map (fun i =>
          findFirstHitChunk lines pat (s + csN + i * csN)
            (if i + 1 < cc + 1 then some (s + csN + (i + 1) * csN) else bp) false)
          (List.range (cc + 1)) := by
      apply List.map_congr_left
      intro i hi
      simp only [Function.comp_apply]
      have h1 : s + (i + 1) * csN = s + csN + i * csN := by ring
      by_cases hcc : i + 1 < cc + 1
      · rw [if_pos (by omega), if_pos hcc, h1]
        have h2 : s + (i + 1 + 1) * csN = s + csN + (i + 1) * csN := by ring
        rw [h2]
      · rw [if_neg (by omega), if_neg hcc, h1]
    rw [hmap, ih (s + csN) csN bp hcs (by
      intro b hbb
      have := hbp b hbb
      omega)]
    have hsplit := chunk_fwd_split lines pat (s + csN - s) s (s + csN) bp (by omega)
      (by omega)
      (by
        intro b hbb
        have := hbp b hbb
        omega)
    rw [if_pos (by omega)]
    rw [show s + (0 + 1) * csN = s + csN by ring, show s + 0 * csN = s by ring]
    rw [hsplit]
    rcases hx : findFirstHitChunk lines pat s (some (s + csN)) false with _ | m <;>
      simp [firstSome, hx]

/-- Scanning backward over chunk starts s, s-c, s-2c, ... and keeping the
first non-nil result in range order equals one combined backward scan. -/
theorem fold_bwd (lines : List String) (pat : String → Bool) :
    ∀ cc s csN bp, 1 ≤ csN → s < lines.length → (cc + 1) * csN ≤ s + 1 →
      (∀ b, bp = some b → b + cc * csN < s) →
      ((List.range (cc + 1)).map fun i =>
          findFirstHitChunk lines pat (s - i * csN)
            (if i + 1 < cc + 1 then some (s - (i + 1) * csN) else bp) true).findSome? id
        = findFirstHitChunk lines pat s bp true := by
  intro cc
  induction cc with
  | zero =>
    intro s csN bp hcs hs hle hbp
    rw [show List.range 1 = [0] from rfl, List.map_cons, List.map_nil, List.findSome?_cons]
    rw [if_neg (by omega), show s - 0 * csN = s by simp]
    rcases hres : findFirstHitChunk lines pat s bp true with _ | m <;> simp [hres]
  | succ cc ih =>
    intro s csN bp hcs hs hle hbp
    have hx1 : (cc + 1 + 1) * csN = csN + (cc + 1) * csN := by ring
    have hx2 : (cc + 1) * csN = cc * csN + csN := by ring
    rw [List.range_succ_eq_map, List.map_cons, List.findSome?_cons, List.map_map]
    have hmap : List.map
        ((fun i =>
          findFirstHitChunk lines pat (s - i * csN)
            (if i + 1 < cc + 1 + 1 then some (s - (i + 1) * csN) else bp) true) ∘ Nat.succ)
        (List.range (cc + 1))
        = List.map (fun i =>
          findFirstHitChunk lines pat (s - csN - i * csN)
            (if i + 1 < cc + 1 then some (s - csN - (i + 1) * csN) else bp) true)
          (List.range (cc + 1)) := by
      apply List.map_congr_left
      intro i hi
      simp only [Function.comp_apply]
      rw [List.mem_range] at hi
      have hic : (i + 1 + 1) * csN ≤ s + 1 := by
        calc (i + 1 + 1) * csN ≤ (cc + 1 + 1) * csN := by
              apply Nat.mul_le_mul_right
              omega
        _ ≤ s + 1 := hle
      have hia : (i + 1) * csN = i * csN + csN := by ring
      have hib : (i + 1 + 1) * csN = (i + 1) * csN + csN := by ring
      have h1 : s - (i + 1) * csN = s - csN - i * csN := by omega
      by_cases hcc : i + 1 < cc + 1
      · rw [if_pos (by omega), if_pos hcc, h1]
        have h2 : s - (i + 1 + 1) * csN = s - csN - (i + 1) * csN := by omega
        rw [h2]
      · rw [if_neg (by omega), if_neg hcc, h1]
    rw [hmap, ih (s - csN) csN bp hcs (by omega) (by omega)
      (by
        intro b hbb
        have := hbp b hbb
        omega)]
    have hsplit := chunk_bwd_split lines pat s s (s - csN) bp (by omega)
      (by omega) hs
      (by
        intro b hbb
        have := hbp b hbb
        omega)
    rw [if_pos (by omega)]
    rw [show s - (0 + 1) * csN = s - csN by simp, show s - 0 * csN = s by simp]
    rw [hsplit]
    rcases hx : findFirstHitChunk lines pat s (some (s - csN)) true with _ | m <;>
      simp [firstSome, hx]

/-- The Go result-collection loop over evenly spaced forward chunk starts
equals one combined forward scan. -/
theorem wrapper_fwd (lines : List String) (pat : String → Bool)
    (N start csN : Nat) (bp : Option Nat)
    (hN : 1 ≤ N) (hcs : 1 ≤ csN)
    (hlast : ∀ b, bp = some b → start + (N - 1) * csN < b) :
    ((List.range N).map fun i =>
        match (((List.range N).map fun j => start + j * csN))[i]? with
        | some searchStart =>
          findFirstHitChunk lines pat searchStart
            (match (((List.range N).map fun j => start + j * csN))[i + 1]? with
             | some nextStart => some nextStart
             | none => bp) false
        | none => none).findSome? id
      = findFirstHitChunk lines pat start bp false := by
  obtain ⟨M, rfl⟩ : ∃ M, N = M + 1 := ⟨N - 1, by omega⟩
  have htrans : ((List.range (M + 1)).map fun i =>
      match (((List.range (M + 1)).map fun j => start + j * csN))[i]? with
      | some searchStart =>
        findFirstHitChunk lines pat searchStart
          (match (((List.range (M + 1)).map fun j => start + j * csN))[i + 1]? with
           | some nextStart => some nextStart
           | none => bp) false
      | none => none)
      = (List.range (M + 1)).map fun i =>
        findFirstHitChunk lines pat (start + i * csN)
          (if i + 1 < M + 1 then some (start + (i + 1) * csN) else bp) false := by
    apply List.map_congr_left
    intro i hi
    rw [List.mem_range] at hi
    rw [List.getElem?_map, List.getElem?_range hi, List.getElem?_map]
    by_cases hi1 : i + 1 < M + 1
    · rw [List.getElem?_range hi1, if_pos hi1]
      simp
    · rw [List.getElem?_eq_none (by simpa using hi1), if_neg hi1]
      simp
  rw [htrans]
  exact fold_fwd lines pat M start csN bp hcs
    (by
      intro b hbb
      have := hlast b hbb
      simpa using this)

/-- The Go result-collection loop over evenly spaced backward chunk
starts equals one combined backward scan. -/
theorem wrapper_bwd (lines : List String) (pat : String → Bool)
    (N start csN : Nat) (bp : Option Nat)
    (hN : 1 ≤ N) (hcs : 1 ≤ csN) (hstart : start < lines.length)
    (hle : N * csN ≤ start + 1)
    (hlast : ∀ b, bp = some b → b + (N - 1) * csN < start) :
    ((List.range N).map fun i =>
        match (((List.range N).map fun j => start - j * csN))[i]? with
        | some searchStart =>
          findFirstHitChunk lines pat searchStart
            (match (((List.range N).map fun j => start - j * csN))[i + 1]? with
             | some nextStart => some nextStart
             | none => bp) true
        | none => none).findSome? id
      = findFirstHitChunk lines pat start bp true := by
  obtain ⟨M, rfl⟩ : ∃ M, N = M + 1 := ⟨N - 1, by omega⟩
  have htrans : ((List.range (M + 1)).map fun i =>
      match (((List.range (M + 1)).map fun j => start - j * csN))[i]? with
      | some searchStart =>
        findFirstHitChunk lines pat searchStart
          (match (((List.range (M + 1)).map fun j => start - j * csN))[i + 1]? with
           | some nextStart => some nextStart
           | none => bp) true
      | none => none)
      = (List.range (M + 1)).map fun i =>
        findFirstHitChunk lines pat (start - i * csN)
          (if i + 1 < M + 1 then some (start - (i + 1) * csN) else bp) true := by
    apply List.map_congr_left
    intro i hi
    rw [List.mem_range] at hi
    rw [List.getElem?_map, List.getElem?_range hi, List.getElem?_map]
    by_cases hi1 : i + 1 < M + 1
    · rw [List.getElem?_range hi1, if_pos hi1]
      simp
    · rw [List.getElem?_eq_none (by simpa using hi1), if_neg hi1]
      simp
  rw [htrans]
  exact fold_bwd lines pat M start csN bp hcs hstart (by simpa using hle)
    (by
      intro b hbb
      have := hlast b hbb
      simpa using this)

/-- Go truncating division of natural casts is natural division. -/
theorem tdiv_natCast (a b : Nat) : Int.tdiv (a : Int) (b : Int) = ((a / b : Nat) : Int) := rfl

/-- The parallel chunked search computes exactly what one combined scan
computes, for any CPU count: the partition into chunks and the in-order
collection of chunk results do not change the result. -/
theorem findFirstHit_eq_chunk (lines : List String) (pat : String → Bool)
    (numCPU start : Nat) (bp : Option Nat) (bw : Bool)
    (hcpu : 1 ≤ numCPU)
    (hfwd : bw = false → ∀ b, bp = some b → start < b)
    (hbwd : bw = true → start < lines.length ∧ ∀ b, bp = some b → b < start) :
    findFirstHit lines pat numCPU start bp bw
      = findFirstHitChunk lines pat start bp bw := by
  cases bw with
  | false =>
    have hb := hfwd rfl
    simp only [findFirstHit, Bool.false_eq_true, if_false, Int.toNat_natCast]
    rcases bp with _ | b
    · by_cases hcc : ((lines.length : Int) - (start : Int)) < (numCPU : Int)
      · simp only [if_pos hcc]
        simp only [Int.toNat_one, nonWrappingAdd]
        rw [show List.range 1 = [0] from rfl]
        simp only [List.map_cons, List.map_nil, List.findSome?_cons]
        norm_num
        rcases hres : findFirstHitChunk lines pat start none false with _ | m <;>
          simp [hres]
      · simp only [if_neg hcc, Int.toNat_natCast]
        have hsl : start ≤ lines.length := by omega
        have hL : (lines.length : Int) - (start : Int)
            = ((lines.length - start : Nat) : Int) := by omega
        have hNL : numCPU ≤ lines.length - start := by omega
        have hcs1 : 1 ≤ (lines.length - start) / numCPU :=
          (Nat.one_le_div_iff (by omega)).mpr hNL
        have hstarts : ((List.range numCPU).map fun (i : Nat) =>
            nonWrappingAdd start ((i : Int) * 1
              * Int.tdiv ((lines.length : Int) - (start : Int)) ((numCPU : Nat) : Int)))
            = (List.range numCPU).map fun j =>
              start + j * ((lines.length - start) / numCPU) := by
          apply List.map_congr_left
          intro i hi
          rw [hL, tdiv_natCast, nonWrappingAdd]
          rw [show (i : Int) * 1 * (((lines.length - start) / numCPU : Nat) : Int)
              = ((i * ((lines.length - start) / numCPU) : Nat) : Int) by push_cast; ring]
          omega
        rw [hstarts]
        exact wrapper_fwd lines pat numCPU start ((lines.length - start) / numCPU) none
          hcpu hcs1 (by intro b hbb; exact Option.noConfusion hbb)
    · have hsb : start < b := hb b rfl
      by_cases hcc : ((b : Int) - (start : Int)) < (numCPU : Int)
      · simp only [if_pos hcc]
        simp only [Int.toNat_one, nonWrappingAdd]
        rw [show List.range 1 = [0] from rfl]
        simp only [List.map_cons, List.map_nil, List.findSome?_cons]
        norm_num
        rcases hres : findFirstHitChunk lines pat start (some b) false with _ | m <;>
          simp [hres]
      · simp only [if_neg hcc, Int.toNat_natCast]
        have hL : (b : Int) - (start : Int) = ((b - start : Nat) : Int) := by omega
        have hNL : numCPU ≤ b - start := by omega
        have hcs1 : 1 ≤ (b - start) / numCPU := (Nat.one_le_div_iff (by omega)).mpr hNL
        have hstarts : ((List.range numCPU).map fun (i : Nat) =>
            nonWrappingAdd start ((i : Int) * 1
              * Int.tdiv ((b : Int) - (start : Int)) ((numCPU : Nat) : Int)))
            = (List.range numCPU).map fun j => start + j * ((b - start) / numCPU) := by
          apply List.map_congr_left
          intro i hi
          rw [hL, tdiv_natCast, nonWrappingAdd]
          rw [show (i : Int) * 1 * (((b - start) / numCPU : Nat) : Int)
              = ((i * ((b - start) / numCPU) : Nat) : Int) by push_cast; ring]
          omega
        rw [hstarts]
        apply wrapper_fwd lines pat numCPU start ((b - start) / numCPU) (some b)
          hcpu hcs1
        intro b' hbb
        obtain rfl : b = b' := by injection hbb
        have hmul : numCPU * ((b - start) / numCPU) ≤ b - start := by
          rw [Nat.mul_comm]
          exact Nat.div_mul_le_self _ _
        have hdec : numCPU * ((b - start) / numCPU)
            = (numCPU - 1) * ((b - start) / numCPU) + (b - start) / numCPU := by
          have h1 : numCPU - 1 + 1 = numCPU := by omega
          calc numCPU * ((b - start) / numCPU)
              = (numCPU - 1 + 1) * ((b - start) / numCPU) := by rw [h1]
          _ = (numCPU - 1) * ((b - start) / numCPU) + (b - start) / numCPU := by ring
        omega
  | true =>
    obtain ⟨hsl, hb⟩ := hbwd rfl
    simp only [findFirstHit, if_pos rfl, eq_self_iff_true, if_true, Int.toNat_natCast]
    rcases bp with _ | b
    · by_cases hcc : ((start : Int) + 1) < (numCPU : Int)
      · simp only [if_pos hcc]
        simp only [Int.toNat_one, nonWrappingAdd]
        rw [show List.range 1 = [0] from rfl]
        simp only [List.map_cons, List.map_nil, List.findSome?_cons]
        norm_num
        rcases hres : findFirstHitChunk lines pat start none true with _ | m <;>
          simp [hres]
      · simp only [if_neg hcc, Int.toNat_natCast]
        have hNL : numCPU ≤ start + 1 := by omega
        have hL : (start : Int) + 1 = ((start + 1 : Nat) : Int) := by push_cast; ring
        have hcs1 : 1 ≤ (start + 1) / numCPU := (Nat.one_le_div_iff (by omega)).mpr hNL
        have hmul : numCPU * ((start + 1) / numCPU) ≤ start + 1 := by
          rw [Nat.mul_comm]
          exact Nat.div_mul_le_self _ _
        have hstarts : ((List.range numCPU).map fun (i : Nat) =>
            nonWrappingAdd start ((i : Int) * -1
              * Int.tdiv ((start : Int) + 1) ((numCPU : Nat) : Int)))
            = (List.range numCPU).map fun j => start - j * ((start + 1) / numCPU) := by
          apply List.map_congr_left
          intro i hi
          rw [List.mem_range] at hi
          rw [hL, tdiv_natCast, nonWrappingAdd]
          have himul : i * ((start + 1) / numCPU) ≤ start := by
            have h3 : i + 1 ≤ numCPU := by omega
            have h2 : i * ((start + 1) / numCPU) + (start + 1) / numCPU
                ≤ numCPU * ((start + 1) / numCPU) := by
              calc i * ((start + 1) / numCPU) + (start + 1) / numCPU
                  = (i + 1) * ((start + 1) / numCPU) := by ring
              _ ≤ numCPU * ((start + 1) / numCPU) := Nat.mul_le_mul_right _ h3
            omega
          rw [show (i : Int) * -1 * (((start + 1) / numCPU : Nat) : Int)
              = -((i * ((start + 1) / numCPU) : Nat) : Int) by push_cast; ring]
          omega
        rw [hstarts]
        exact wrapper_bwd lines pat numCPU start ((start + 1) / numCPU) none
          hcpu hcs1 hsl hmul (by intro b hbb; exact Option.noConfusion hbb)
    · have hbs : b < start := hb b rfl
      by_cases hcc : ((start : Int) - (b : Int)) < (numCPU : Int)
      · simp only [if_pos hcc]
        simp only [Int.toNat_one, nonWrappingAdd]
        rw [show List.range 1 = [0] from rfl]
        simp only [List.map_cons, List.map_nil, List.findSome?_cons]
        norm_num
        rcases hres : findFirstHitChunk lines pat start (some b) true with _ | m <;>
          simp [hres]
      · simp only [if_neg hcc, Int.toNat_natCast]
        have hNL : numCPU ≤ start - b := by omega
        have hL : (start : Int) - (b : Int) = ((start - b : Nat) : Int) := by omega
        have hcs1 : 1 ≤ (start - b) / numCPU := (Nat.one_le_div_iff (by omega)).mpr hNL
        have hmul : numCPU * ((start - b) / numCPU) ≤ start - b := by
          rw [Nat.mul_comm]
          exact Nat.div_mul_le_self _ _
        have hstarts : ((List.range numCPU).map fun (i : Nat) =>
            nonWrappingAdd start ((i : Int) * -1
              * Int.tdiv ((start : Int) - (b : Int)) ((numCPU : Nat) : Int)))
            = (List.range numCPU).map fun j => start - j * ((start - b) / numCPU) := by
          apply List.map_congr_left
          intro i hi
          rw [List.mem_range] at hi
          rw [hL, tdiv_natCast, nonWrappingAdd]
          have himul : i * ((start - b) / numCPU) ≤ start := by
            have h3 : i + 1 ≤ numCPU := by omega
            have h2 : i * ((start - b) / numCPU) + (start - b) / numCPU
                ≤ numCPU * ((start - b) / numCPU) := by
              calc i * ((start - b) / numCPU) + (start - b) / numCPU
                  = (i + 1) * ((start - b) / numCPU) := by ring
              _ ≤ numCPU * ((start - b) / numCPU) := Nat.mul_le_mul_right _ h3
            omega
          rw [show (i : Int) * -1 * (((start - b) / numCPU : Nat) : Int)
              = -((i * ((start - b) / numCPU) : Nat) : Int) by push_cast; ring]
          omega
        rw [hstarts]
        apply wrapper_bwd lines pat numCPU start ((start - b) / numCPU) (some b)
          hcpu hcs1 hsl (by omega)
        intro b' hbb
        obtain rfl : b = b' := by injection hbb
        have hdec : numCPU * ((start - b) / numCPU)
            = (numCPU - 1) * ((start - b) / numCPU) + (start - b) / numCPU := by
          have h1 : numCPU - 1 + 1 = numCPU := by omega
          calc numCPU * ((start - b) / numCPU)
              = (numCPU - 1 + 1) * ((start - b) / numCPU) := by rw [h1]
          _ = (numCPU - 1) * ((start - b) / numCPU) + (start - b) / numCPU := by ring
        omega

/-- The full parallel search equals the scan-order contract whenever the
start is inside the store (for backward scans) and the exclusive bound
lies strictly beyond the start in scan direction. -/
theorem findFirstHit_eq_spec (lines : List String) (pat : String → Bool)
    (numCPU start : Nat) (bp : Option Nat) (bw : Bool)
    (hcpu : 1 ≤ numCPU)
    (hfwd : bw = false → ∀ b, bp = some b → start < b)
    (hbwd : bw = true → start < lines.length ∧ ∀ b, bp = some b → b < start) :
    findFirstHit lines pat numCPU start bp bw
      = findFirstHitSpec lines pat start bp bw := by
  rw [findFirstHit_eq_chunk lines pat numCPU start bp bw hcpu hfwd hbwd]
  cases bw with
  | false => exact chunk_fwd_eq_spec lines pat start bp (hfwd rfl)
  | true => exact chunk_bwd_eq_spec lines pat start bp (hbwd rfl).1 (hbwd rfl).2

/-- C1: for every line store, pattern, start index, exclusive bound and
direction — provided the start lies inside the store for a backward scan
and the bound, when present, lies strictly beyond the start in scan
order — findFirstHit returns exactly the first matching index in scan
order (smallest at or after the start going forward, largest at or
before the start going backward), never an index at or past the
exclusive bound, and none when no line in the range matches; the result
is the same for every CPU count (that is, for every partition of the
range into chunks), and chunk results are collected in range order so an
earlier chunk's match always wins regardless of which goroutine finishes
first. -/
theorem C1_findFirstHit_first_match (lines : List String) (pat : String → Bool)
    (numCPU startPosition : Nat) (beforePosition : Option Nat) (backwards : Bool)
    (hcpu : 1 ≤ numCPU)
    (hfwd : backwards = false →
      ∀ b, beforePosition = some b → startPosition < b)
    (hbwd : backwards = true →
      startPosition < lines.length ∧ ∀ b, beforePosition = some b → b < startPosition) :
    findFirstHit lines pat numCPU startPosition beforePosition backwards
      = findFirstHitSpec lines pat startPosition beforePosition backwards :=
  findFirstHit_eq_spec lines pat numCPU startPosition beforePosition backwards
    hcpu hfwd hbwd

/-- C1 counterexample to the claim as frozen: with the exclusive bound
equal to the start index, findFirstHit still scans and returns the start
line (the bound is only checked after advancing), so it returns an index
at the exclusive bound, while the scan-order contract says the range is
empty and nothing should match. -/
theorem C1_counterexample :
    findFirstHit ["xb"] patX 1 0 (some 0) false = some 0 ∧
      findFirstHitSpec ["xb"] patX 0 (some 0) false = none := by
  constructor
  · simp [findFirstHit, findFirstHitChunk_eq, patX, nonWrappingAdd, List.range_succ,
      Int.tdiv]
  · simp [findFirstHitSpec, beforeOk, matchAt, patX, List.range_succ]

/-- C1 witness: the amended theorem applied to the spec's five-line
sample store with two CPUs. -/
theorem C1_findFirstHit_first_match_witness :
    1 ≤ 2 ∧
      findFirstHit ["a", "xb", "c", "xd", "e"] patX 2 0 none false
        = findFirstHitSpec ["a", "xb", "c", "xd", "e"] patX 0 none false :=
  ⟨by decide,
    C1_findFirstHit_first_match ["a", "xb", "c", "xd", "e"] patX 2 0 none false
      (by decide)
      (fun _ b hb => Option.noConfusion hb)
      (fun h => Bool.noConfusion h)⟩

/-- The forward contract reports no match exactly when no line in its
range matches. -/
theorem spec_fwd_none_iff (lines : List String) (pat : String → Bool)
    (s : Nat) (bp : Option Nat) :
    findFirstHitSpec lines pat s bp false = none ↔
      ∀ j, s ≤ j → j < lines.length → (∀ b, bp = some b → j < b) →
        matchAt lines pat j = false := by
  rw [findFirstHitSpec]
  simp only [Bool.false_eq_true, if_false, List.range_eq_range']
  rw [find?_range'_eq_none]
  constructor
  · intro h j hj1 hj2 hj3
    have := h j (by omega) (by omega)
    rcases hm : matchAt lines pat j with _ | _
    · rfl
    · rw [hm] at this
      have hbok : beforeOk bp false j = true := by
        rcases bp with _ | b
        · rfl
        · rw [beforeOk]
          simpa using hj3 b rfl
      simp [hj1, hbok] at this
  · intro h j hj1 hj2
    by_cases hs : s ≤ j
    · rcases hbok : beforeOk bp false j with _ | _
      · simp [hbok]
      · have hjb : ∀ b, bp = some b → j < b := by
          intro b hbb
          rw [hbb, beforeOk] at hbok
          simpa using hbok
        simp [h j hs (by omega) hjb]
    · simp [hs]

/-- The set of lines the forward scan contract covers from a given start
below a given exclusive bound. -/
def scannedForward (lines : List String) (startPosition : Nat)
    (beforePosition : Option Nat) (i : Nat) : Prop :=
  startPosition ≤ i ∧ i < lines.length ∧ ∀ b, beforePosition = some b → i < b

/-- C4: in the scroll-while-typing forward flow, when the initial
unbounded scan from the top-of-screen index start fails and start is not
0, the retry scans from 0 with start as exclusive bound; across the two
scans no line is covered twice and every line is covered, and when both
scans report no match no line in the store matches.  When start is 0 the
flow gives up without a retry, and that give-up skips nothing: the
initial unbounded scan already covered index 0 and everything after it,
so its failure means no line at all matches, including index 0. -/
theorem C4_scrollToSearchHits_wrap (lines : List String) (pat : String → Bool)
    (numCPU start : Nat) (hcpu : 1 ≤ numCPU) :
    (start ≠ 0 →
      (∀ i, ¬ (scannedForward lines start none i ∧ scannedForward lines 0 (some start) i)) ∧
      (∀ i, i < lines.length →
        scannedForward lines start none i ∨ scannedForward lines 0 (some start) i)) ∧
    (start ≠ 0 →
      findFirstHit lines pat numCPU start none false = none →
      findFirstHit lines pat numCPU 0 (some start) false = none →
      ∀ i, i < lines.length → matchAt lines pat i = false) ∧
    (start = 0 →
      findFirstHit lines pat numCPU 0 none false = none →
      ∀ i, i < lines.length → matchAt lines pat i = false) := by
  refine ⟨?_, ?_, ?_⟩
  · intro hs0
    constructor
    · rintro i ⟨⟨h1, h2, h3⟩, ⟨h4, h5, h6⟩⟩
      have := h6 start rfl
      omega
    · intro i hi
      by_cases hcase : start ≤ i
      · exact Or.inl ⟨hcase, hi, fun b hb => Option.noConfusion hb⟩
      · exact Or.inr ⟨by omega, hi, fun b hb => by
          have hsb : start = b := Option.some_inj.mp hb
          omega⟩
  · intro hs0 h1 h2 i hi
    rw [findFirstHit_eq_spec lines pat numCPU start none false hcpu
      (fun _ b hb => Option.noConfusion hb) (fun h => Bool.noConfusion h)] at h1
    rw [findFirstHit_eq_spec lines pat numCPU 0 (some start) false hcpu
      (fun _ b hb => by
        have hsb : start = b := Option.some_inj.mp hb
        omega)
      (fun h => Bool.noConfusion h)] at h2
    rw [spec_fwd_none_iff] at h1 h2
    by_cases hcase : start ≤ i
    · exact h1 i hcase hi (fun b hb => Option.noConfusion hb)
    · exact h2 i (by omega) hi (fun b hb => by
        have hsb : start = b := Option.some_inj.mp hb
        omega)
  · rintro rfl h1 i hi
    rw [findFirstHit_eq_spec lines pat numCPU 0 none false hcpu
      (fun _ b hb => Option.noConfusion hb) (fun h => Bool.noConfusion h)] at h1
    rw [spec_fwd_none_iff] at h1
    exact h1 i (by omega) hi (fun b hb => Option.noConfusion hb)

/-- C4 witness: the wrap partition and no-skip facts at a concrete store,
start index 2, two CPUs. -/
theorem C4_scrollToSearchHits_wrap_witness :
    1 ≤ 2 ∧
      ((2 ≠ 0 →
        (∀ i, ¬ (scannedForward ["a", "xb", "c"] 2 none i ∧
          scannedForward ["a", "xb", "c"] 0 (some 2) i)) ∧
        (∀ i, i < (["a", "xb", "c"] : List String).length →
          scannedForward ["a", "xb", "c"] 2 none i ∨
            scannedForward ["a", "xb", "c"] 0 (some 2) i)) ∧
      (2 ≠ 0 →
        findFirstHit ["a", "xb", "c"] patX 2 2 none false = none →
        findFirstHit ["a", "xb", "c"] patX 2 0 (some 2) false = none →
        ∀ i, i < (["a", "xb", "c"] : List String).length →
          matchAt ["a", "xb", "c"] patX i = false) ∧
      (2 = 0 →
        findFirstHit ["a", "xb", "c"] patX 2 0 none false = none →
        ∀ i, i < (["a", "xb", "c"] : List String).length →
          matchAt ["a", "xb", "c"] patX i = false)) :=
  ⟨by decide, C4_scrollToSearchHits_wrap ["a", "xb", "c"] patX 2 2 (by decide)⟩

/-! ## The search-mode state machine (search.go)

The PagerMode values live in pager source files outside the excerpt; the
spec fixes the search-mode machine to exactly the states Viewing and
NotFound, and search.go switches on exactly these two (anything else
panics).  The helpers the two scroll functions call that are outside the
excerpt (getLastVisiblePosition, isScrolledToEnd, scrollRightToSearchHits,
linemetadata.IndexFromLength) enter the model as explicit inputs. -/

/-- Modelled from the spec: the search-mode states, exactly Viewing and
NotFound. -/
inductive PagerMode where
  | viewing
  | notFound
deriving DecidableEq, Repr

/-- Modelled from the spec: linemetadata.IndexFromLength — the last
LineIndex of a store with the given line count, none for an empty store
(lastIndex = count - 1). -/
def indexFromLength (count : Nat) : Option Nat :=
  if count = 0 then none else some (count - 1)

/-- Embeds the mode transitions of scrollToNextSearchHit from search.go.
scrollRightFound stands for the scrollRightToSearchHits() call,
scrolledToEnd for isScrolledToEnd(), and belowScreenStart for the line
index just below the bottom of the screen; all three are computed by
pager code outside the excerpt.  Scroll-position updates are not part of
the mode machine and are omitted. -/
def scrollToNextSearchHit (lines : List String)
    (searchPattern : Option (String → Bool)) (numCPU : Nat) (mode : PagerMode)
    (scrollRightFound : Bool) (scrolledToEnd : Bool) (belowScreenStart : Nat) :
    PagerMode :=
  match searchPattern with
  | none => mode
  | some pat =>
    if lines.length = 0 then mode
    else if scrollRightFound then mode
    else if mode = .viewing ∧ scrolledToEnd then .notFound
    else
      let firstSearchIndex : Nat :=
        match mode with
        | .viewing => belowScreenStart
        | .notFound => 0
      match findFirstHit lines pat numCPU firstSearchIndex none false with
      | none => .notFound
      | some _ => .viewing

/-- Embeds the mode transitions of scrollToPreviousSearchHit from
search.go; aboveScreenStart stands for the line index just above the top
of the screen.  The inner none branch mirrors the nil-deref that the
positive line-count guard makes unreachable. -/
def scrollToPreviousSearchHit (lines : List String)
    (searchPattern : Option (String → Bool)) (numCPU : Nat) (mode : PagerMode)
    (aboveScreenStart : Nat) : PagerMode :=
  match searchPattern with
  | none => mode
  | some pat =>
    if lines.length = 0 then mode
    else
      let firstSearchIndex : Nat :=
        match mode with
        | .viewing => aboveScreenStart
        | .notFound =>
          match indexFromLength lines.length with
          | some idx => idx
          | none => 0
      match findFirstHit lines pat numCPU firstSearchIndex none true with
      | none => .notFound
      | some _ => .viewing

/-- C3: the search-mode machine has exactly the states Viewing and
NotFound; a next-hit press enters NotFound exactly when its forward scan
(from just below the screen when Viewing — trivially exhausted when
already scrolled to the end — or from the top when resuming from
NotFound) finds no match, and any successful scan leaves the mode
Viewing; a previous-hit press enters NotFound exactly when its backward
scan (from just above the screen when Viewing, or from the last line
when resuming from NotFound) finds no match, and any successful scan
leaves the mode Viewing. -/
theorem C3_search_mode_machine :
    (∀ m : PagerMode, m = PagerMode.viewing ∨ m = PagerMode.notFound) ∧
    (∀ (lines : List String) (pat : String → Bool) (numCPU : Nat) (mode : PagerMode)
      (scrolledToEnd : Bool) (belowScreenStart : Nat),
      1 ≤ numCPU → 0 < lines.length →
      (scrolledToEnd = true → lines.length ≤ belowScreenStart) →
      (scrollToNextSearchHit lines (some pat) numCPU mode false scrolledToEnd
          belowScreenStart = PagerMode.notFound
        ↔ findFirstHit lines pat numCPU
            (match mode with | .viewing => belowScreenStart | .notFound => 0)
            none false = none) ∧
      (scrollToNextSearchHit lines (some pat) numCPU mode false scrolledToEnd
          belowScreenStart = PagerMode.viewing
        ↔ ∃ hit, findFirstHit lines pat numCPU
            (match mode with | .viewing => belowScreenStart | .notFound => 0)
            none false = some hit)) ∧
    (∀ (lines : List String) (pat : String → Bool) (numCPU : Nat) (mode : PagerMode)
      (aboveScreenStart : Nat),
      0 < lines.length →
      (scrollToPreviousSearchHit lines (some pat) numCPU mode aboveScreenStart
          = PagerMode.notFound
        ↔ findFirstHit lines pat numCPU
            (match mode with | .viewing => aboveScreenStart | .notFound => lines.length - 1)
            none true = none) ∧
      (scrollToPreviousSearchHit lines (some pat) numCPU mode aboveScreenStart
          = PagerMode.viewing
        ↔ ∃ hit, findFirstHit lines pat numCPU
            (match mode with | .viewing => aboveScreenStart | .notFound => lines.length - 1)
            none true = some hit)) := by
  refine ⟨fun m => by cases m <;> simp, ?_, ?_⟩
  · intro lines pat numCPU mode scrolledToEnd belowScreenStart hcpu hlen hend
    have hnempty : ¬ lines.length = 0 := by omega
    cases mode with
    | viewing =>
      cases scrolledToEnd with
      | false =>
        rw [scrollToNextSearchHit]
        simp only [if_neg hnempty, Bool.false_eq_true, if_false,
          if_neg (by simp : ¬ (PagerMode.viewing = PagerMode.viewing ∧ false = true))]
        rcases hscan : findFirstHit lines pat numCPU belowScreenStart none false
          with _ | hit <;> simp
      | true =>
        have hbeyond : lines.length ≤ belowScreenStart := hend rfl
        have hscan : findFirstHit lines pat numCPU belowScreenStart none false = none := by
          rw [findFirstHit_eq_spec lines pat numCPU belowScreenStart none false hcpu
            (fun _ b hb => Option.noConfusion hb) (fun h => Bool.noConfusion h)]
          rw [spec_fwd_none_iff]
          intro j hj1 hj2 hj3
          omega
        rw [scrollToNextSearchHit]
        simp only [if_neg hnempty, Bool.false_eq_true, if_false,
          if_pos (⟨rfl, rfl⟩ : PagerMode.viewing = PagerMode.viewing ∧ true = true)]
        simp [hscan]
    | notFound =>
      rw [scrollToNextSearchHit]
      simp only [if_neg hnempty, Bool.false_eq_true, if_false,
        if_neg (by simp : ¬ (PagerMode.notFound = PagerMode.viewing ∧ scrolledToEnd = true))]
      rcases hscan : findFirstHit lines pat numCPU 0 none false with _ | hit <;> simp [hscan]
  · intro lines pat numCPU mode aboveScreenStart hlen
    have hnempty : ¬ lines.length = 0 := by omega
    cases mode with
    | viewing =>
      rw [scrollToPreviousSearchHit]
      simp only [if_neg hnempty]
      rcases hscan : findFirstHit lines pat numCPU aboveScreenStart none true
        with _ | hit <;> simp_all
    | notFound =>
      rw [scrollToPreviousSearchHit]
      simp only [if_neg hnempty, indexFromLength, if_neg hnempty]
      rcases hscan : findFirstHit lines pat numCPU (lines.length - 1) none true
        with _ | hit <;> simp_all

/-- C3 witness: the next-hit transition at a concrete store, from
Viewing with the screen not at the end. -/
theorem C3_search_mode_machine_witness :
    (PagerMode.viewing = PagerMode.viewing ∨ PagerMode.viewing = PagerMode.notFound) ∧
      (1 ≤ 2 ∧ 0 < (["a", "xb"] : List String).length ∧
        (scrollToNextSearchHit ["a", "xb"] (some patX) 2 PagerMode.viewing false false 1
            = PagerMode.notFound
          ↔ findFirstHit ["a", "xb"] patX 2 1 none false = none)) :=
  ⟨(C3_search_mode_machine.1 PagerMode.viewing),
    by decide,
    by decide,
    (C3_search_mode_machine.2.1 ["a", "xb"] patX 2 PagerMode.viewing false 1
      (by decide) (by decide) (fun h => Bool.noConfusion h)).1⟩

/-! ## Horizontal scroll to search hits (search.go)

scrollRightToSearchHits reads the rendered screen through renderLines();
for this claim the rendered screen enters the model as a function from
the two pager fields the loop mutates (showLineNumbers and
leftColumnZeroBased) to the data the function reads: the
StartsSearchHit flag of every rendered cell, the display widths of the
raw input lines, and the number-prefix width.  The Go loop can fail to
make progress (it then spins forever), so the loop takes explicit fuel
and fuel exhaustion is none; every terminating Go run corresponds to
every sufficiently large fuel. -/

/-- The slice of a rendered screen that scrollRightToSearchHits and
searchHitIsVisible read. -/
structure RenderedScreenAbs where
  rows : List (List Bool)
  inputWidths : List Nat
  numberPrefixWidth : Nat

/-- Embeds searchHitIsVisible from search.go: false on an empty screen,
otherwise true exactly when some rendered cell starts a search hit. -/
def searchHitIsVisible (r : RenderedScreenAbs) : Bool :=
  if r.rows.isEmpty then false
  else r.rows.any fun row => row.any fun startsSearchHit => startsSearchHit

/-- Embeds the scroll-right loop of scrollRightToSearchHits.  The result
carries (return value, showLineNumbers, leftColumnZeroBased). -/
def scrollRightLoop (render : Bool → Nat → RenderedScreenAbs)
    (screenWidth numberPrefixWidth : Nat) (maxLeftmostColumn : Int)
    (restoreShowLineNumbers : Bool) (restoreLeftColumn : Nat) :
    Nat → Nat → Bool → Option (Bool × Bool × Nat)
  | 0, _, _ => none
  | fuel + 1, leftColumnZeroBased, _showLineNumbers =>
    if (leftColumnZeroBased : Int) < maxLeftmostColumn then
      let firstNotVisibleColumn : Int :=
        (leftColumnZeroBased : Int) + (screenWidth : Int) - (numberPrefixWidth : Int) - 1
      if firstNotVisibleColumn < 0 then
        some (false, restoreShowLineNumbers, restoreLeftColumn)
      else
        let scrollToColumn : Int :=
          if maxLeftmostColumn < firstNotVisibleColumn then maxLeftmostColumn
          else firstNotVisibleColumn
        if searchHitIsVisible (render false scrollToColumn.toNat) then
          some (true, false, scrollToColumn.toNat)
        else
          scrollRightLoop render screenWidth numberPrefixWidth maxLeftmostColumn
            restoreShowLineNumbers restoreLeftColumn fuel scrollToColumn.toNat false
    else some (false, restoreShowLineNumbers, restoreLeftColumn)

/-- Embeds scrollRightToSearchHits from search.go: no horizontal
scrolling in wrap mode; otherwise compute the longest input line width
and scroll right one screen at a time looking for a visible hit,
restoring showLineNumbers and leftColumnZeroBased when none is found. -/
def scrollRightToSearchHits (render : Bool → Nat → RenderedScreenAbs)
    (wrapLongLines : Bool) (screenWidth : Nat)
    (showLineNumbers : Bool) (leftColumnZeroBased : Nat) (fuel : Nat) :
    Option (Bool × Bool × Nat) :=
  if wrapLongLines then some (false, showLineNumbers, leftColumnZeroBased)
  else
    let rendered := render showLineNumbers leftColumnZeroBased
    let longestLineLength :=
      rendered.inputWidths.foldl (fun acc w => if acc < w then w else acc) 0
    let maxLeftmostColumn : Int := (longestLineLength : Int) - (screenWidth : Int)
    scrollRightLoop render screenWidth rendered.numberPrefixWidth maxLeftmostColumn
      showLineNumbers leftColumnZeroBased fuel leftColumnZeroBased showLineNumbers

/-- The scroll-right loop either reports a visible hit in its final
state, or restores the saved state exactly. -/
theorem scrollRightLoop_frame (render : Bool → Nat → RenderedScreenAbs)
    (screenWidth numberPrefixWidth : Nat) (maxLeftmostColumn : Int)
    (rsln : Bool) (rlc : Nat) :
    ∀ fuel lc sln found s1 s2,
      scrollRightLoop render screenWidth numberPrefixWidth maxLeftmostColumn
          rsln rlc fuel lc sln = some (found, s1, s2) →
      (found = true → searchHitIsVisible (render s1 s2) = true) ∧
      (found = false → s1 = rsln ∧ s2 = rlc) := by
  intro fuel
  induction fuel with
  | zero =>
    intro lc sln found s1 s2 h
    exact Option.noConfusion h
  | succ fuel ih =>
    intro lc sln found s1 s2 h
    rw [scrollRightLoop] at h
    by_cases h1 : (lc : Int) < maxLeftmostColumn
    · rw [if_pos h1] at h
      by_cases h2 : (lc : Int) + (screenWidth : Int) - (numberPrefixWidth : Int) - 1 < 0
      · rw [if_pos h2] at h
        obtain ⟨rfl, rfl, rfl⟩ : found = false ∧ rsln = s1 ∧ rlc = s2 := by
          injection h with h'
          injection h' with ha hb
          injection hb with hb hc
          exact ⟨ha.symm, hb, hc⟩
        exact ⟨fun hcon => Bool.noConfusion hcon, fun _ => ⟨rfl, rfl⟩⟩
      · rw [if_neg h2] at h
        by_cases h3 : searchHitIsVisible (render false
            (if maxLeftmostColumn < (lc : Int) + (screenWidth : Int) - (numberPrefixWidth : Int) - 1
             then maxLeftmostColumn
             else (lc : Int) + (screenWidth : Int) - (numberPrefixWidth : Int) - 1).toNat) = true
        · rw [if_pos h3] at h
          obtain ⟨rfl, rfl, rfl⟩ : found = true ∧ false = s1 ∧ _ = s2 := by
            injection h with h'
            injection h' with ha hb
            injection hb with hb hc
            exact ⟨ha.symm, hb, hc⟩
          exact ⟨fun _ => h3, fun hcon => Bool.noConfusion hcon⟩
        · rw [if_neg h3] at h
          exact ih _ _ found s1 s2 h
    · rw [if_neg h1] at h
      obtain ⟨rfl, rfl, rfl⟩ : found = false ∧ rsln = s1 ∧ rlc = s2 := by
        injection h with h'
        injection h' with ha hb
        injection hb with hb hc
        exact ⟨ha.symm, hb, hc⟩
      exact ⟨fun hcon => Bool.noConfusion hcon, fun _ => ⟨rfl, rfl⟩⟩

/-- C5: whenever scrollRightToSearchHits returns true, a search hit is
visible on the resulting rendered screen (some rendered cell has
StartsSearchHit set); whenever it returns false — including the
wrap-mode early return and the screen-narrower-than-gutter give-up —
showLineNumbers and leftColumnZeroBased are exactly their pre-call
values. -/
theorem C5_scrollRightToSearchHits_frame (render : Bool → Nat → RenderedScreenAbs)
    (wrapLongLines : Bool) (screenWidth : Nat)
    (showLineNumbers : Bool) (leftColumnZeroBased : Nat) (fuel : Nat)
    (found : Bool) (s1 : Bool) (s2 : Nat)
    (h : scrollRightToSearchHits render wrapLongLines screenWidth
      showLineNumbers leftColumnZeroBased fuel = some (found, s1, s2)) :
    (found = true → searchHitIsVisible (render s1 s2) = true) ∧
    (found = false → s1 = showLineNumbers ∧ s2 = leftColumnZeroBased) := by
  rw [scrollRightToSearchHits] at h
  by_cases hw : wrapLongLines
  · rw [if_pos hw] at h
    obtain ⟨rfl, rfl, rfl⟩ : found = false ∧ showLineNumbers = s1 ∧ leftColumnZeroBased = s2 := by
      injection h with h'
      injection h' with ha hb
      injection hb with hb hc
      exact ⟨ha.symm, hb, hc⟩
    exact ⟨fun hcon => Bool.noConfusion hcon, fun _ => ⟨rfl, rfl⟩⟩
  · rw [if_neg hw] at h
    exact scrollRightLoop_frame render screenWidth _ _ showLineNumbers leftColumnZeroBased
      fuel leftColumnZeroBased showLineNumbers found s1 s2 h

/-- C5 witness: the wrap-mode early return restores the state exactly. -/
theorem C5_scrollRightToSearchHits_frame_witness :
    (false = true →
      searchHitIsVisible ((fun _ _ => (⟨[], [], 0⟩ : RenderedScreenAbs)) true 5) = true) ∧
    (false = false → true = true ∧ 5 = 5) :=
  C5_scrollRightToSearchHits_frame (fun _ _ => ⟨[], [], 0⟩) true 10 true 5 1 false true 5 rfl

/-- Writing, then reading back, the same grid position. -/
theorem setGrid_getD (cells : List (List StyledRune)) (r c : Nat) (v : StyledRune)
    (hr : r < cells.length) (hc : c < (cells.getD r []).length) :
    ((setGrid cells r c v).getD r []).getD c (newStyledRune ' ' styleDefault) = v := by
  have h1 : (setGrid cells r c v).getD r [] = (cells.getD r []).set c v := by
    rw [setGrid, List.getD_eq_getElem?_getD, List.getElem?_set_self hr]
    simp
  rw [h1, List.getD_eq_getElem?_getD, List.getElem?_set_self hc]
  simp

/-- C9: SetCell always returns the width of the given rune, even when
the position is out of bounds, in which case the grid is untouched; an
in-bounds write whose rune would cross the right screen edge stores a
single blank space carrying the rune's style instead, and in either
in-bounds case the stored cell never extends past the right screen
edge. -/
theorem C9_SetCell (w : Char → Nat) (screen : UnixScreen) (column row : Int)
    (styledRune : StyledRune)
    (hwf : screen.wellFormed) (hspace : w ' ' = 1) :
    (setCell w screen column row styledRune).2 = w styledRune.r ∧
    ((column < 0 ∨ row < 0 ∨ (screen.width : Int) ≤ column ∨ (screen.height : Int) ≤ row) →
      (setCell w screen column row styledRune).1 = screen) ∧
    (0 ≤ column → 0 ≤ row → column < (screen.width : Int) → row < (screen.height : Int) →
      ((screen.width : Int) < column + w styledRune.r →
        (setCell w screen column row styledRune).1.cells
          = setGrid screen.cells row.toNat column.toNat
              (newStyledRune ' ' styledRune.style)) ∧
      (column + w styledRune.r ≤ (screen.width : Int) →
        (setCell w screen column row styledRune).1.cells
          = setGrid screen.cells row.toNat column.toNat styledRune) ∧
      (column : Int) + w ((((setCell w screen column row styledRune).1.cells.getD
          row.toNat []).getD column.toNat (newStyledRune ' ' styleDefault)).r)
        ≤ (screen.width : Int)) := by
  obtain ⟨hlen, hrows⟩ := hwf
  refine ⟨?_, ?_, ?_⟩
  · rw [setCell]
    split <;> try rfl
    split <;> try rfl
    split <;> try rfl
    split <;> try rfl
    split <;> rfl
  · intro hout
    rw [setCell]
    by_cases hc0 : column < 0
    · rw [if_pos hc0]
    · rw [if_neg hc0]
      by_cases hr0 : row < 0
      · rw [if_pos hr0]
      · rw [if_neg hr0]
        by_cases hcw : (screen.width : Int) ≤ column
        · rw [if_pos hcw]
        · rw [if_neg hcw, if_pos (by omega)]
  · intro h1 h2 h3 h4
    have hrr : row.toNat < screen.cells.length := by omega
    have hcc : column.toNat < (screen.cells.getD row.toNat []).length := by
      have hmem : screen.cells.getD row.toNat [] ∈ screen.cells := by
        have : screen.cells.getD row.toNat [] = screen.cells[row.toNat] := by
          rw [List.getD_eq_getElem?_getD, List.getElem?_eq_getElem hrr]
          rfl
        rw [this]
        exact List.getElem_mem hrr
      rw [hrows _ hmem]
      omega
    refine ⟨?_, ?_, ?_⟩
    · intro hwide
      rw [setCell]
      rw [if_neg (by omega), if_neg (by omega), if_neg (by omega), if_neg (by omega),
        if_pos hwide]
    · intro hfits
      rw [setCell]
      rw [if_neg (by omega), if_neg (by omega), if_neg (by omega), if_neg (by omega),
        if_neg (by omega)]
    · rw [setCell]
      rw [if_neg (by omega), if_neg (by omega), if_neg (by omega), if_neg (by omega)]
      by_cases hwide : (screen.width : Int) < column + w styledRune.r
      · rw [if_pos hwide]
        have := setGrid_getD screen.cells row.toNat column.toNat
          (newStyledRune ' ' styledRune.style) hrr hcc
        simp only [this]
        rw [show (newStyledRune ' ' styledRune.style).r = ' ' from rfl, hspace]
        omega
      · rw [if_neg hwide]
        have := setGrid_getD screen.cells row.toNat column.toNat styledRune hrr hcc
        simp only [this]
        omega

/-- C9 witness: a 2x2 screen, writing a double-width rune at the last
column of the first row. -/
theorem C9_SetCell_witness :
    (UnixScreen.wellFormed ⟨2, 2, [[newStyledRune ' ' styleDefault,
        newStyledRune ' ' styleDefault],
      [newStyledRune ' ' styleDefault, newStyledRune ' ' styleDefault]]⟩ ∧
      (fun c => if c = '午' then 2 else 1) ' ' = 1) ∧
    (setCell (fun c => if c = '午' then 2 else 1)
        ⟨2, 2, [[newStyledRune ' ' styleDefault, newStyledRune ' ' styleDefault],
          [newStyledRune ' ' styleDefault, newStyledRune ' ' styleDefault]]⟩
        1 0 (newStyledRune '午' styleDefault)).2
      = (fun c => if c = '午' then 2 else 1) '午' := by
  constructor
  · constructor
    · constructor
      · decide
      · intro r hr
        fin_cases hr <;> decide
    · decide
  · exact (C9_SetCell (fun c => if c = '午' then 2 else 1) _ 1 0
      (newStyledRune '午' styleDefault)
      ⟨by decide, by intro r hr; fin_cases hr <;> decide⟩ (by decide)).1

/-- C7 counterexample to the claim as frozen: button code 65 decodes to
a wheel-DOWN event, not wheel-up — in consumeEncodedEvent it is 64 that
maps to wheel-up (the comment above mouseEventRegex has the two
swapped; the code follows the SGR convention). -/
theorem C7_counterexample :
    consumeEncodedEvent escSequenceToKeyCode mouse65Sample
        = (some (Event.mouse MouseButton.wheelDown), []) ∧
      Event.mouse MouseButton.wheelDown ≠ Event.mouse MouseButton.wheelUp :=
  ⟨by decide, by decide⟩

/-- C7: for any key-code table none of whose sequences is a prefix of
the input, a lone ESC byte decodes to the Escape key code with nothing
left over, and an input beginning with ESC [ < 6 5 ; 1 0 ; 5 M decodes
to a wheel-DOWN mouse event, consuming exactly that substring and
leaving the remaining input untouched. -/
theorem C7_consumeEncodedEvent_decode (table : List (List Char × KeyCode))
    (rest : List Char)
    (h1 : ∀ p ∈ table, p.1.isPrefixOf ("\x1b".data) = false)
    (h2 : ∀ p ∈ table, p.1.isPrefixOf (mouse65Sample ++ rest) = false) :
    consumeEncodedEvent table "\x1b".data = (some (.keyCode .escape), []) ∧
    consumeEncodedEvent table (mouse65Sample ++ rest)
      = (some (.mouse .wheelDown), rest) := by
  constructor
  · have hfind : table.find? (fun e => e.1.isPrefixOf "\x1b".data) = none := by
      rw [List.find?_eq_none]
      intro p hp
      simp [h1 p hp]
    rw [consumeEncodedEvent.eq_def]
    simp only [hfind]
    decide
  · have hfind : table.find? (fun e => e.1.isPrefixOf (mouse65Sample ++ rest)) = none := by
      rw [List.find?_eq_none]
      intro p hp
      simp [h2 p hp]
    have hmouse : mouseEventMatch (mouse65Sample ++ rest)
        = some (mouse65Sample, ['6', '5']) := rfl
    rw [consumeEncodedEvent.eq_def]
    simp only [hfind, hmouse]
    rw [if_neg (by decide), if_pos (by decide), List.drop_left]

/-- C7 witness: the amended decoding facts at the concrete arrow-key
table with trailing input "ab". -/
theorem C7_consumeEncodedEvent_decode_witness :
    consumeEncodedEvent escSequenceToKeyCode "\x1b".data
        = (some (.keyCode .escape), []) ∧
      consumeEncodedEvent escSequenceToKeyCode (mouse65Sample ++ "ab".data)
        = (some (.mouse .wheelDown), "ab".data) :=
  C7_consumeEncodedEvent_decode escSequenceToKeyCode "ab".data
    (by decide) (by decide)

/-- C10: for every input that begins with an ESC byte, has at least one
more rune, matches no key-code table sequence, and either does not match
the mouse pattern or matches it with a button other than 64 and 65,
consumeEncodedEvent returns no event and an empty remainder: the whole
remaining buffer is discarded. -/
theorem C10_consumeEncodedEvent_discard (table : List (List Char × KeyCode))
    (input : List Char)
    (hesc : input.head? = some '\x1b') (hlen : 2 ≤ input.length)
    (htable : ∀ p ∈ table, p.1.isPrefixOf input = false)
    (hmouse : ∀ full g1, mouseEventMatch input = some (full, g1) →
      g1 ≠ "64".data ∧ g1 ≠ "65".data) :
    consumeEncodedEvent table input = (none, []) := by
  have hfind : table.find? (fun e => e.1.isPrefixOf input) = none := by
    rw [List.find?_eq_none]
    intro p hp
    simp [htable p hp]
  rw [consumeEncodedEvent.eq_def]
  simp only [hfind]
  rcases hm : mouseEventMatch input with _ | ⟨full, g1⟩
  · rcases input with _ | ⟨r, rtail⟩
    · simp at hlen
    · obtain rfl : r = '\x1b' := by simpa using hesc
      have hrtail : rtail ≠ [] := by
        intro hnil
        subst hnil
        simp at hlen
      simp [hm, hrtail]
  · obtain ⟨h64, h65⟩ := hmouse full g1 hm
    simp [hm, h64, h65]

/-- C10 witness: the unrecognized sequence ESC Q followed by more input
is discarded whole. -/
theorem C10_consumeEncodedEvent_discard_witness :
    ("\x1bQab".data.head? = some '\x1b' ∧ 2 ≤ "\x1bQab".data.length) ∧
      consumeEncodedEvent escSequenceToKeyCode "\x1bQab".data = (none, []) :=
  ⟨⟨by decide, by decide⟩,
    C10_consumeEncodedEvent_discard escSequenceToKeyCode "\x1bQab".data
      (by decide) (by decide) (by decide)
      (fun full g1 hm => by
        rw [(by decide : mouseEventMatch "\x1bQab".data
          = (none : Option (List Char × List Char)))] at hm
        exact Option.noConfusion hm)⟩

/-- C6 counterexample to the claim as frozen: the one-byte strict prefix
ESC of the sample response parses as invalid, not incomplete-but-valid,
because the header check strings.HasPrefix fails on any input shorter
than the 9-byte header. -/
theorem C6_counterexample :
    parseTerminalBgColorResponse (bgSampleFull.take 1) = (none, false) ∧
      ((none : Option Color24), false) ≠ ((none : Option Color24), true) :=
  ⟨by decide, by decide⟩

/-- C6: the exact sample response parses to the 24-bit color
(0x12, 0x56, 0x9a), each 16-bit channel scaled down to 8 bits, with the
valid flag set; every strict prefix long enough to contain the full
9-byte header reports incomplete-but-valid, and every shorter non-empty
prefix reports invalid. -/
theorem C6_parseTerminalBgColorResponse :
    parseTerminalBgColorResponse bgSampleFull = (some ⟨0x12, 0x56, 0x9a⟩, true) ∧
    ((List.range 24).filter (fun n => decide (9 ≤ n))).all
        (fun n => decide (parseTerminalBgColorResponse (bgSampleFull.take n)
          = (none, true))) = true ∧
    ((List.range 9).filter (fun n => decide (1 ≤ n))).all
        (fun n => decide (parseTerminalBgColorResponse (bgSampleFull.take n)
          = (none, false))) = true := by
  refine ⟨by decide, by decide, by decide⟩

/-! ## Viewport line decoration (screenLines.go)

decorateLine and createLinePrefix from screenLines.go.  The cell type is
textstyles.CellWithMetadata (rune, style, search-hit flag); widths again
come from the external width table w.  Go slice expressions that can
panic (contents[first:last+1] with first past last+1, indexing an empty
line for the scroll-right marker) become Option: none marks exactly the
inputs on which the Go code panics. -/

/-- A textstyles.CellWithMetadata: one styled rune plus the flag marking
the first cell of a search hit. -/
structure CellWithMetadata where
  r : Char
  style : GoStyle := {}
  startsSearchHit : Bool := false
deriving DecidableEq, Repr

/-- The package-level lineNumbersStyle variable (its value lives outside
the excerpt and never affects widths). -/
def lineNumbersStyle : GoStyle := {}

/-- Modelled from the spec: linemetadata.Number.Format (outside the
excerpt), the decimal text of a line number. -/
def formatNumber (n : Nat) : List Char :=
  (toString n).data

/-- Embeds createLinePrefix from screenLines.go: empty for a zero
prefix length, all blanks for a wrap continuation, otherwise the line
number right-justified via Sprintf %*s plus one trailing blank; none
models the panic when the formatted number does not fit. -/
def createLinePfx (lineNumber : Option Nat) (numberPrefixLength : Nat) :
    Option (List CellWithMetadata) :=
  if numberPrefixLength = 0 then some []
  else
    match lineNumber with
    | none => some (List.replicate numberPrefixLength ⟨' ', {}, false⟩)
    | some num =>
      let lineNumberString :=
        List.replicate (numberPrefixLength - 1 - (formatNumber num).length) ' '
          ++ formatNumber num ++ [' ']
      if numberPrefixLength < lineNumberString.length then none
      else some ((lineNumberString.take numberPrefixLength).map
          fun digit => ⟨digit, lineNumbersStyle, false⟩)

/-- A Go slice expression xs[lo:hi]: none models the bounds panic. -/
def goSlice (xs : List CellWithMetadata) (lo hi : Nat) :
    Option (List CellWithMetadata) :=
  if lo ≤ hi ∧ hi ≤ xs.length then some ((xs.drop lo).take (hi - lo)) else none

/-- What decorateLine's visibility loop computes. -/
structure DecorateScanResult where
  firstVisibleRuneIndex : Option Nat
  lastVisibleRuneIndex : Int
  cutOffRuneToTheLeft : Bool
  cutOffRuneToTheRight : Bool
  canScrollRight : Bool
deriving DecidableEq, Repr

/-- Embeds the visibility loop of decorateLine: find the first and last
fully visible runes, whether a wide rune was cut at either edge, and
whether content continues past the right edge. -/
def decorateScan (w : Char → Nat) (contents : List CellWithMetadata)
    (leftColumnZeroBased : Nat) (lastVisibleScreenColumn : Int)
    (i : Nat) (screenColumn : Int) (fv : Option Nat) (lv : Int) (cl : Bool) :
    DecorateScanResult :=
  match hget : contents[i]? with
  | none => ⟨fv, lv, cl, false, false⟩
  | some char =>
    let stepFv : Option Nat × Bool :=
      if fv = none ∧ (leftColumnZeroBased : Int) ≤ screenColumn then
        (some i,
          if 0 < i ∧ (leftColumnZeroBased : Int) < screenColumn ∧
              1 < w ((contents.getD (i - 1) ⟨' ', {}, false⟩).r)
          then true else cl)
      else (fv, cl)
    let fv' := stepFv.1
    let cl' := stepFv.2
    let currentCharRightEdge := screenColumn + (w char.r : Int) - 1
    if fv' ≠ none then
      if currentCharRightEdge ≤ lastVisibleScreenColumn then
        decorateScan w contents leftColumnZeroBased lastVisibleScreenColumn
          (i + 1) (screenColumn + (w char.r : Int)) fv' (i : Int) cl'
      else
        ⟨fv', lv, cl', decide (screenColumn ≤ lastVisibleScreenColumn), true⟩
    else
      decorateScan w contents leftColumnZeroBased lastVisibleScreenColumn
        (i + 1) (screenColumn + (w char.r : Int)) fv' lv cl'
termination_by contents.length - i
decreasing_by
  all_goals
    have hlt : i < contents.length := by
      by_contra hge
      rw [List.getElem?_eq_none (by omega)] at hget
      exact Option.noConfusion hget
    omega

/-- Embeds decorateLine from screenLines.go: line-number gutter, the
horizontal visibility window, blank stand-ins for wide runes cut at
either edge, and the scroll-left / scroll-right indicator cells. -/
def decorateLine (w : Char → Nat)
    (scrollLeftHint scrollRightHint : CellWithMetadata)
    (screenWidth leftColumnZeroBased : Nat)
    (lineNumberToShow : Option Nat) (numberPrefixLength : Nat)
    (contents : List CellWithMetadata) : Option (List CellWithMetadata) :=
  match createLinePfx lineNumberToShow numberPrefixLength with
  | none => none
  | some pfxCells =>
    let lastVisibleScreenColumn : Int :=
      (leftColumnZeroBased : Int) + (screenWidth : Int) - 1
    let scan := decorateScan w contents leftColumnZeroBased lastVisibleScreenColumn
      0 (numberPrefixLength : Int) none (-1) false
    let newLine :=
      if scan.cutOffRuneToTheLeft then
        (⟨' ', scrollLeftHint.style, false⟩ : CellWithMetadata) :: pfxCells
      else pfxCells
    let visSlice : Option (List CellWithMetadata) :=
      match scan.firstVisibleRuneIndex with
      | none => some []
      | some fvi => goSlice contents fvi (scan.lastVisibleRuneIndex + 1).toNat
    match visSlice with
    | none => none
    | some vis =>
      let newLine := newLine ++ vis
      let newLine :=
        if scan.cutOffRuneToTheRight then
          newLine ++ [(⟨' ', scrollRightHint.style, false⟩ : CellWithMetadata)]
        else newLine
      let newLine :=
        if 0 < leftColumnZeroBased ∧ contents ≠ [] then
          let nl := if newLine = [] then [(⟨Char.ofNat 0, {}, false⟩ : CellWithMetadata)]
            else newLine
          let nl :=
            if 1 < w ((nl.headD ⟨Char.ofNat 0, {}, false⟩).r) then
              (⟨' ', scrollLeftHint.style, false⟩ : CellWithMetadata)
                :: nl.set 0 ⟨' ', scrollLeftHint.style, false⟩
            else nl
          nl.set 0 scrollLeftHint
        else newLine
      if scan.canScrollRight then
        match newLine.getLast? with
        | none => none
        | some lastCell =>
          let nl :=
            if 1 < w lastCell.r then
              newLine.set (newLine.length - 1) ⟨' ', scrollRightHint.style, false⟩
                ++ [(⟨' ', scrollRightHint.style, false⟩ : CellWithMetadata)]
            else newLine
          some (nl.set (nl.length - 1) scrollRightHint)
      else some newLine

/-- Total display width of a cell row. -/
def cellsWidth (w : Char → Nat) (cells : List CellWithMetadata) : Nat :=
  (cells.map fun c => w c.r).sum

/-- Unfolding equation for the visibility loop with a non-dependent
match, convenient for evaluation and induction. -/
theorem decorateScan_eq (w : Char → Nat) (contents : List CellWithMetadata)
    (leftColumnZeroBased : Nat) (lastVisibleScreenColumn : Int)
    (i : Nat) (screenColumn : Int) (fv : Option Nat) (lv : Int) (cl : Bool) :
    decorateScan w contents leftColumnZeroBased lastVisibleScreenColumn
        i screenColumn fv lv cl
      = match contents[i]? with
        | none => ⟨fv, lv, cl, false, false⟩
        | some char =>
          let stepFv : Option Nat × Bool :=
            if fv = none ∧ (leftColumnZeroBased : Int) ≤ screenColumn then
              (some i,
                if 0 < i ∧ (leftColumnZeroBased : Int) < screenColumn ∧
                    1 < w ((contents.getD (i - 1) ⟨' ', {}, false⟩).r)
                then true else cl)
            else (fv, cl)
          if stepFv.1 ≠ none then
            if screenColumn + (w char.r : Int) - 1 ≤ lastVisibleScreenColumn then
              decorateScan w contents leftColumnZeroBased lastVisibleScreenColumn
                (i + 1) (screenColumn + (w char.r : Int)) stepFv.1 (i : Int) stepFv.2
            else
              ⟨stepFv.1, lv, stepFv.2,
                decide (screenColumn ≤ lastVisibleScreenColumn), true⟩
          else
            decorateScan w contents leftColumnZeroBased lastVisibleScreenColumn
              (i + 1) (screenColumn + (w char.r : Int)) stepFv.1 lv stepFv.2 := by
  rw [decorateScan]
  rcases hget : contents[i]? with _ | char <;> simp

example :
    decorateLine (fun _ => 1) ⟨'<', {}, false⟩ ⟨'>', {}, false⟩ 1 0 none 2 []
      = some [⟨' ', {}, false⟩, ⟨' ', {}, false⟩] := by
  simp [decorateLine, decorateScan_eq, createLinePfx, goSlice, List.replicate]

example :
    decorateLine (fun _ => 1) ⟨'<', {}, false⟩ ⟨'>', {}, false⟩ 4 0 none 0
        [⟨'a', {}, false⟩, ⟨'b', {}, false⟩]
      = some [⟨'a', {}, false⟩, ⟨'b', {}, false⟩] := by
  simp [decorateLine, decorateScan_eq, createLinePfx, goSlice]

example :
    decorateLine (fun c => if c = '午' then 2 else 1) ⟨'<', {}, false⟩ ⟨'>', {}, false⟩
        2 1 none 0 [⟨'午', {}, false⟩, ⟨'午', {}, false⟩]
      = none := by
  simp [decorateLine, decorateScan_eq, createLinePfx, goSlice]

/-- The screen column at which content cell i starts: the gutter width
plus the widths of all earlier content cells. -/
def colAt (w : Char → Nat) (numberPrefixLength : Nat)
    (contents : List CellWithMetadata) (i : Nat) : Nat :=
  numberPrefixLength + cellsWidth w (contents.take i)

/-- Stepping the column accumulator by one cell. -/
theorem colAt_succ (w : Char → Nat) (pfx : Nat) (contents : List CellWithMetadata)
    (i : Nat) (char : CellWithMetadata) (h : contents[i]? = some char) :
    colAt w pfx contents (i + 1) = colAt w pfx contents i + w char.r := by
  obtain ⟨hlt, hval⟩ := List.getElem?_eq_some.mp h
  rw [colAt, colAt, List.take_succ, List.getElem?_eq_getElem hlt, hval]
  simp [cellsWidth]
  omega

/-- The column accumulator is monotone. -/
theorem colAt_mono (w : Char → Nat) (pfx : Nat) (contents : List CellWithMetadata)
    (i j : Nat) (h : i ≤ j) : colAt w pfx contents i ≤ colAt w pfx contents j := by
  have hsplit : contents.take j = contents.take i ++ (contents.drop i).take (j - i) := by
    rw [← List.take_add]
    congr 1
    omega
  rw [colAt, colAt, hsplit, cellsWidth, cellsWidth, List.map_append, List.sum_append]
  omega

/-- What the visibility loop guarantees about its result, relative to
the column accumulator. -/
theorem decorateScan_post (w : Char → Nat) (contents : List CellWithMetadata)
    (leftCol pfx : Nat) (lastVis : Int) :
    ∀ k i fv lv cl,
      contents.length - i ≤ k →
      (fv = none → lv = -1 ∧ cl = false ∧
        ∀ j, j < i → (colAt w pfx contents j : Int) < (leftCol : Int)) →
      (∀ f, fv = some f → f < i ∧ i ≤ contents.length ∧ lv = (i : Int) - 1 ∧
        (leftCol : Int) ≤ (colAt w pfx contents f : Int) ∧
        (∀ j, j < f → (colAt w pfx contents j : Int) < (leftCol : Int)) ∧
        (cl = true → 1 ≤ f ∧ (leftCol : Int) < (colAt w pfx contents f : Int)) ∧
        (colAt w pfx contents i : Int) ≤ lastVis + 1) →
      ((decorateScan w contents leftCol lastVis i (colAt w pfx contents i) fv lv
          cl).firstVisibleRuneIndex = none →
        (decorateScan w contents leftCol lastVis i (colAt w pfx contents i) fv lv
          cl) = ⟨none, -1, false, false, false⟩) ∧
      (∀ f, (decorateScan w contents leftCol lastVis i (colAt w pfx contents i) fv lv
          cl).firstVisibleRuneIndex = some f →
        f < contents.length ∧
        (leftCol : Int) ≤ (colAt w pfx contents f : Int) ∧
        (∀ j, j < f → (colAt w pfx contents j : Int) < (leftCol : Int)) ∧
        ((decorateScan w contents leftCol lastVis i (colAt w pfx contents i) fv lv
            cl).cutOffRuneToTheLeft = true →
          1 ≤ f ∧ (leftCol : Int) < (colAt w pfx contents f : Int)) ∧
        ((decorateScan w contents leftCol lastVis i (colAt w pfx contents i) fv lv
            cl).lastVisibleRuneIndex < 0 →
          (decorateScan w contents leftCol lastVis i (colAt w pfx contents i) fv lv
            cl).lastVisibleRuneIndex = -1 ∧
          ((decorateScan w contents leftCol lastVis i (colAt w pfx contents i) fv lv
              cl).cutOffRuneToTheRight = true →
            (colAt w pfx contents f : Int) ≤ lastVis)) ∧
        (0 ≤ (decorateScan w contents leftCol lastVis i (colAt w pfx contents i) fv lv
            cl).lastVisibleRuneIndex →
          f ≤ (decorateScan w contents leftCol lastVis i (colAt w pfx contents i) fv lv
            cl).lastVisibleRuneIndex.toNat ∧
          (decorateScan w contents leftCol lastVis i (colAt w pfx contents i) fv lv
            cl).lastVisibleRuneIndex.toNat < contents.length ∧
          (colAt w pfx contents ((decorateScan w contents leftCol lastVis i
            (colAt w pfx contents i) fv lv cl).lastVisibleRuneIndex.toNat + 1) : Int)
            ≤ lastVis + 1 ∧
          ((decorateScan w contents leftCol lastVis i (colAt w pfx contents i) fv lv
              cl).cutOffRuneToTheRight = true →
            (colAt w pfx contents ((decorateScan w contents leftCol lastVis i
              (colAt w pfx contents i) fv lv cl).lastVisibleRuneIndex.toNat + 1) : Int)
              ≤ lastVis))) := by
  intro k
  induction k with
  | zero =>
    intro i fv lv cl hk hnone hsome
    rw [decorateScan_eq, List.getElem?_eq_none (by omega)]
    refine ⟨?_, ?_⟩
    · intro hfv
      simp only at hfv
      obtain ⟨rfl, rfl, -⟩ := hnone hfv
      subst hfv
      rfl
    · intro f hfv
      simp only at hfv
      obtain ⟨h1, h2, h3, h4, h4b, h5, h6⟩ := hsome f hfv
      refine ⟨by omega, h4, h4b, ?_, ?_, ?_⟩
      · intro hcl
        simp only at hcl
        exact h5 hcl
      · intro hlv
        simp only at hlv ⊢
        constructor
        · omega
        · intro hcon
          exact Bool.noConfusion hcon
      · intro hlv
        simp only at hlv ⊢
        refine ⟨by omega, by omega, ?_, fun hcon => Bool.noConfusion hcon⟩
        have hlvi : lv.toNat + 1 = i := by omega
        rw [hlvi]
        exact h6
  | succ k ih =>
    intro i fv lv cl hk hnone hsome
    refine ⟨?_, ?_⟩
    all_goals
      rw [decorateScan_eq]
      rcases hget : contents[i]? with _ | char
    -- fv = none conclusion, no cell at i
    · intro hfv
      simp only at hfv
      obtain ⟨rfl, rfl, -⟩ := hnone hfv
      subst hfv
      rfl
    -- fv = none conclusion, cell at i
    · have hilen : i < contents.length := by
        obtain ⟨h, _⟩ := List.getElem?_eq_some.mp hget
        exact h
      have hcolstep : (colAt w pfx contents i : Int) + (w char.r : Int)
          = (colAt w pfx contents (i + 1) : Int) := by
        rw [colAt_succ w pfx contents i char hget]
        push_cast
        ring
      by_cases hvis : fv = none ∧ (leftCol : Int) ≤ (colAt w pfx contents i : Int)
      · rw [if_pos hvis]
        simp only
        by_cases hedge : (colAt w pfx contents i : Int) + (w char.r : Int) - 1 ≤ lastVis
        · rw [if_pos (by simp), if_pos hedge, hcolstep]
          intro hfv
          have hres := (ih (i + 1) (some i) (i : Int)
            (if 0 < i ∧ (leftCol : Int) < (colAt w pfx contents i : Int) ∧
                1 < w ((contents.getD (i - 1) ⟨' ', {}, false⟩).r)
              then true else cl)
            (by omega)
            (fun hcon => Option.noConfusion hcon)
            (by
              intro f' hf'
              obtain rfl : i = f' := Option.some_inj.mp hf'
              refine ⟨by omega, by omega, by push_cast; ring, hvis.2,
                fun j hj => (hnone hvis.1).2.2 j hj, ?_, ?_⟩
              · intro hcl
                split at hcl
                · rename_i hcond
                  exact ⟨by omega, hcond.2.1⟩
                · obtain ⟨_, rfl, -⟩ := hnone hvis.1
                  exact Bool.noConfusion hcl
              · rw [colAt_succ w pfx contents i char hget]
                push_cast
                omega)).1 hfv
          rw [hres]
        · rw [if_pos (by simp), if_neg hedge]
          intro hfv
          exact Option.noConfusion hfv
      · rw [if_neg hvis]
        simp only
        by_cases hfvn : fv = none
        · obtain ⟨rfl, rfl, hprev⟩ := hnone hfvn
          subst hfvn
          rw [if_neg (by simp), hcolstep]
          intro hfv
          have hres := (ih (i + 1) none (-1) false (by omega)
            (fun _ => ⟨rfl, rfl, fun j hj => by
              rcases Nat.lt_succ_iff_lt_or_eq.mp hj with h | h
              · exact hprev j h
              · subst h
                by_contra hcon
                exact hvis ⟨rfl, by omega⟩⟩)
            (fun f hf => Option.noConfusion hf)).1 hfv
          rw [hres]
        · rcases fv with _ | f0
          · exact absurd rfl hfvn
          · rw [if_pos (by simp)]
            obtain ⟨hf1, hf2, hf3, hf4, hf4b, hf5, hf6⟩ := hsome f0 rfl
            by_cases hedge : (colAt w pfx contents i : Int) + (w char.r : Int) - 1 ≤ lastVis
            · rw [if_pos hedge, hcolstep]
              intro hfv
              have hres := (ih (i + 1) (some f0) (i : Int) cl (by omega)
                (fun hcon => Option.noConfusion hcon)
                (fun f hf => by
                  obtain rfl : f0 = f := Option.some_inj.mp hf
                  refine ⟨by omega, by omega, by push_cast; ring, hf4, hf4b, hf5, ?_⟩
                  rw [colAt_succ w pfx contents i char hget]
                  push_cast
                  omega)).1 hfv
              rw [hres]
            · rw [if_neg hedge]
              intro hfv
              exact Option.noConfusion hfv
    -- fv = some conclusion, no cell at i
    · intro f hfv
      simp only at hfv
      obtain ⟨h1, h2, h3, h4, h4b, h5, h6⟩ := hsome f hfv
      refine ⟨by omega, h4, h4b, ?_, ?_, ?_⟩
      · intro hcl
        simp only at hcl
        exact h5 hcl
      · intro hlv
        simp only at hlv ⊢
        constructor
        · omega
        · intro hcon
          exact Bool.noConfusion hcon
      · intro hlv
        simp only at hlv ⊢
        refine ⟨by omega, by omega, ?_, fun hcon => Bool.noConfusion hcon⟩
        have hlvi : lv.toNat + 1 = i := by omega
        rw [hlvi]
        exact h6
    -- fv = some conclusion, cell at i
    · have hilen : i < contents.length := by
        obtain ⟨h, _⟩ := List.getElem?_eq_some.mp hget
        exact h
      have hcolstep : (colAt w pfx contents i : Int) + (w char.r : Int)
          = (colAt w pfx contents (i + 1) : Int) := by
        rw [colAt_succ w pfx contents i char hget]
        push_cast
        ring
      by_cases hvis : fv = none ∧ (leftCol : Int) ≤ (colAt w pfx contents i : Int)
      · rw [if_pos hvis]
        simp only
        by_cases hedge : (colAt w pfx contents i : Int) + (w char.r : Int) - 1 ≤ lastVis
        · rw [if_pos (by simp), if_pos hedge, hcolstep]
          intro f hfv
          exact (ih (i + 1) (some i) (i : Int)
            (if 0 < i ∧ (leftCol : Int) < (colAt w pfx contents i : Int) ∧
                1 < w ((contents.getD (i - 1) ⟨' ', {}, false⟩).r)
              then true else cl)
            (by omega)
            (fun hcon => Option.noConfusion hcon)
            (by
              intro f' hf'
              obtain rfl : i = f' := Option.some_inj.mp hf'
              refine ⟨by omega, by omega, by push_cast; ring, hvis.2,
                fun j hj => (hnone hvis.1).2.2 j hj, ?_, ?_⟩
              · intro hcl
                split at hcl
                · rename_i hcond
                  exact ⟨by omega, hcond.2.1⟩
                · obtain ⟨_, rfl, -⟩ := hnone hvis.1
                  exact Bool.noConfusion hcl
              · rw [colAt_succ w pfx contents i char hget]
                push_cast
                omega)).2 f hfv
        · rw [if_pos (by simp), if_neg hedge]
          intro f hfv
          simp only at hfv
          obtain rfl : i = f := Option.some_inj.mp hfv
          refine ⟨hilen, hvis.2, fun j hj => (hnone hvis.1).2.2 j hj, ?_, ?_, ?_⟩
          · intro hcl
            simp only at hcl
            split at hcl
            · rename_i hcond
              exact ⟨by omega, hcond.2.1⟩
            · obtain ⟨_, rfl, -⟩ := hnone hvis.1
              exact Bool.noConfusion hcl
          · intro hlv
            simp only at hlv ⊢
            obtain ⟨rfl, -, -⟩ := hnone hvis.1
            refine ⟨rfl, ?_⟩
            intro hcut
            simpa using of_decide_eq_true hcut
          · intro hlv
            simp only at hlv ⊢
            obtain ⟨rfl, -, -⟩ := hnone hvis.1
            omega
      · rw [if_neg hvis]
        simp only
        by_cases hfvn : fv = none
        · obtain ⟨rfl, rfl, hprev⟩ := hnone hfvn
          subst hfvn
          rw [if_neg (by simp), hcolstep]
          intro f hfv
          exact (ih (i + 1) none (-1) false (by omega)
            (fun _ => ⟨rfl, rfl, fun j hj => by
              rcases Nat.lt_succ_iff_lt_or_eq.mp hj with h | h
              · exact hprev j h
              · subst h
                by_contra hcon
                exact hvis ⟨rfl, by omega⟩⟩)
            (fun f' hf' => Option.noConfusion hf')).2 f hfv
        · rcases fv with _ | f0
          · exact absurd rfl hfvn
          · rw [if_pos (by simp)]
            obtain ⟨hf1, hf2, hf3, hf4, hf4b, hf5, hf6⟩ := hsome f0 rfl
            by_cases hedge : (colAt w pfx contents i : Int) + (w char.r : Int) - 1 ≤ lastVis
            · rw [if_pos hedge, hcolstep]
              intro f hfv
              exact (ih (i + 1) (some f0) (i : Int) cl (by omega)
                (fun hcon => Option.noConfusion hcon)
                (fun f' hf' => by
                  obtain rfl : f0 = f' := Option.some_inj.mp hf'
                  refine ⟨by omega, by omega, by push_cast; ring, hf4, hf4b, hf5, ?_⟩
                  rw [colAt_succ w pfx contents i char hget]
                  push_cast
                  omega)).2 f hfv
            · rw [if_neg hedge]
              intro f hfv
              simp only at hfv
              obtain rfl : f0 = f := Option.some_inj.mp hfv
              refine ⟨by omega, hf4, hf4b, ?_, ?_, ?_⟩
              · intro hcl
                simp only at hcl
                exact hf5 hcl
              · intro hlv
                simp only at hlv
                omega
              · intro hlv
                simp only at hlv ⊢
                refine ⟨by omega, by omega, ?_, ?_⟩
                · have hlvi : lv.toNat + 1 = i := by omega
                  rw [hlvi]
                  exact hf6
                · intro hcut
                  have hsc := of_decide_eq_true hcut
                  have hlvi : lv.toNat + 1 = i := by omega
                  rw [hlvi]
                  exact hsc

/-- Width distributes over concatenation. -/
theorem cellsWidth_append (w : Char → Nat) (xs ys : List CellWithMetadata) :
    cellsWidth w (xs ++ ys) = cellsWidth w xs + cellsWidth w ys := by
  simp [cellsWidth]

/-- Width of a row starting with a known cell. -/
theorem cellsWidth_cons (w : Char → Nat) (c : CellWithMetadata)
    (xs : List CellWithMetadata) :
    cellsWidth w (c :: xs) = w c.r + cellsWidth w xs := by
  simp [cellsWidth]

/-- Replacing one cell exchanges exactly the widths of the old and new
cell. -/
theorem cellsWidth_set (w : Char → Nat) :
    ∀ (xs : List CellWithMetadata) (k : Nat) (c d : CellWithMetadata),
      k < xs.length →
      cellsWidth w (xs.set k c) + w ((xs.getD k d).r)
        = cellsWidth w xs + w c.r := by
  intro xs
  induction xs with
  | nil =>
    intro k c d hk
    simp at hk
  | cons a as ih =>
    intro k c d hk
    cases k with
    | zero =>
      simp only [List.set_cons_zero, List.getD_cons_zero, cellsWidth, List.map_cons,
        List.sum_cons]
      omega
    | succ k =>
      have hk' : k < as.length := by simpa using hk
      have hih := ih k c d hk'
      simp only [List.set_cons_succ, List.getD_cons_succ, cellsWidth, List.map_cons,
        List.sum_cons] at hih ⊢
      omega

/-- Overwriting the appended final element of a row. -/
theorem set_append_length (xs : List CellWithMetadata) (c h : CellWithMetadata) :
    (xs ++ [c]).set xs.length h = xs ++ [h] := by
  induction xs with
  | nil => rfl
  | cons a as ih =>
    simp only [List.cons_append, List.length_cons, List.set_cons_succ, ih]

/-- The width of a middle slice is the difference of the column
accumulator at its two ends. -/
theorem colAt_slice (w : Char → Nat) (pfx : Nat) (contents : List CellWithMetadata)
    (f e : Nat) (hfe : f ≤ e) :
    colAt w pfx contents f + cellsWidth w ((contents.drop f).take (e - f))
      = colAt w pfx contents e := by
  have hsplit : contents.take e = contents.take f ++ (contents.drop f).take (e - f) := by
    rw [← List.take_add]
    congr 1
    omega
  rw [colAt, colAt, hsplit, cellsWidth, cellsWidth, cellsWidth, List.map_append,
    List.sum_append]
  omega

/-- A row of single-width cells is as wide as it is long. -/
theorem width_of_ones (w : Char → Nat) :
    ∀ (cells : List CellWithMetadata), (∀ c ∈ cells, w c.r = 1) →
      cellsWidth w cells = cells.length := by
  intro cells
  induction cells with
  | nil => intro _; rfl
  | cons a as ih =>
    intro h
    rw [cellsWidth_cons, ih (fun c hc => h c (List.mem_cons_of_mem a hc)),
      h a (List.mem_cons_self a as)]
    simp [Nat.add_comm]

/-- The last cell of a row is one of its members. -/
theorem mem_of_getLast?_cells :
    ∀ (xs : List CellWithMetadata) (a : CellWithMetadata),
      xs.getLast? = some a → a ∈ xs := by
  intro xs
  induction xs with
  | nil =>
    intro a h
    exact Option.noConfusion h
  | cons x xs ih =>
    intro a h
    rcases xs with _ | ⟨y, ys⟩
    · simp only [List.getLast?_singleton, Option.some.injEq] at h
      simp [h]
    · rw [List.getLast?_cons_cons] at h
      exact List.mem_cons_of_mem x (ih a h)

/-- The line-number gutter fills exactly its configured width with
single-width cells. -/
theorem createLinePfx_facts (w : Char → Nat) (hsp : w ' ' = 1)
    (hdig : ∀ (n : Nat), ∀ c ∈ formatNumber n, w c = 1)
    (ln : Option Nat) (pl : Nat) (cells : List CellWithMetadata)
    (h : createLinePfx ln pl = some cells) :
    cellsWidth w cells = pl ∧ ∀ c ∈ cells, w c.r = 1 := by
  rcases ln with _ | num
  · simp only [createLinePfx] at h
    by_cases hpl : pl = 0
    · rw [if_pos hpl] at h
      obtain rfl := Option.some_inj.mp h
      subst hpl
      exact ⟨rfl, by simp⟩
    · rw [if_neg hpl] at h
      obtain rfl := Option.some_inj.mp h
      constructor
      · rw [width_of_ones]
        · simp
        · intro c hc
          rw [List.eq_of_mem_replicate hc]
          exact hsp
      · intro c hc
        rw [List.eq_of_mem_replicate hc]
        exact hsp
  · simp only [createLinePfx] at h
    by_cases hpl : pl = 0
    · rw [if_pos hpl] at h
      obtain rfl := Option.some_inj.mp h
      subst hpl
      exact ⟨rfl, by simp⟩
    · rw [if_neg hpl] at h
      split at h
      · exact Option.noConfusion h
      · rename_i hlen
        obtain rfl := Option.some_inj.mp h
        have hmem : ∀ c ∈ ((List.replicate (pl - 1 - (formatNumber num).length) ' '
            ++ formatNumber num ++ [' ']).take pl).map
              fun digit => (⟨digit, lineNumbersStyle, false⟩ : CellWithMetadata),
            w c.r = 1 := by
          intro c hc
          obtain ⟨d, hd, rfl⟩ := List.mem_map.mp hc
          have hd' := List.mem_of_mem_take hd
          simp only [List.append_assoc, List.mem_append, List.mem_singleton] at hd'
          rcases hd' with hd' | hd' | hd'
          · rw [List.eq_of_mem_replicate hd']
            exact hsp
          · exact hdig num d hd'
          · rw [hd']
            exact hsp
        have hL : (List.replicate (pl - 1 - (formatNumber num).length) ' '
            ++ formatNumber num ++ [' ']).length
            = (pl - 1 - (formatNumber num).length) + ((formatNumber num).length + 1) := by
          simp
        rw [hL] at hlen
        refine ⟨?_, hmem⟩
        rw [width_of_ones w _ hmem, List.length_map, List.length_take, hL]
        omega

/-- The scroll-left decoration step never widens a nonempty row of
positive-width cells, keeps every cell at positive width, and keeps the
row nonempty. -/
theorem leftBlock_width (w : Char → Nat) (hint sp dflt : CellWithMetadata)
    (hhint : w hint.r = 1) (hspc : w sp.r = 1)
    (xs : List CellWithMetadata) (hne : xs ≠ [])
    (hok : ∀ e ∈ xs, 1 ≤ w e.r) :
    cellsWidth w ((if 1 < w ((xs.headD dflt).r)
        then sp :: xs.set 0 sp else xs).set 0 hint) ≤ cellsWidth w xs ∧
    (∀ e ∈ ((if 1 < w ((xs.headD dflt).r)
        then sp :: xs.set 0 sp else xs).set 0 hint), 1 ≤ w e.r) ∧
    ((if 1 < w ((xs.headD dflt).r)
        then sp :: xs.set 0 sp else xs).set 0 hint) ≠ [] := by
  rcases xs with _ | ⟨a, as⟩
  · exact absurd rfl hne
  · have hok' : ∀ e ∈ as, 1 ≤ w e.r := fun e he => hok e (List.mem_cons_of_mem a he)
    have ha : 1 ≤ w a.r := hok a (List.mem_cons_self a as)
    by_cases hwide : 1 < w ((List.headD (a :: as) dflt).r)
    · rw [if_pos hwide]
      rw [List.headD_cons] at hwide
      simp only [List.set_cons_zero]
      refine ⟨?_, ?_, by simp⟩
      · rw [cellsWidth_cons, cellsWidth_cons, cellsWidth_cons, hhint, hspc]
        omega
      · intro e he
        rcases List.mem_cons.mp he with rfl | he
        · omega
        · rcases List.mem_cons.mp he with rfl | he
          · omega
          · exact hok' e he
    · rw [if_neg hwide]
      rw [List.headD_cons] at hwide
      simp only [List.set_cons_zero]
      refine ⟨?_, ?_, by simp⟩
      · rw [cellsWidth_cons, cellsWidth_cons, hhint]
        omega
      · intro e he
        rcases List.mem_cons.mp he with rfl | he
        · omega
        · exact hok' e he

/-- The scroll-right decoration step never widens a row whose last cell
has positive width. -/
theorem rightBlock_width (w : Char → Nat) (hint sp : CellWithMetadata)
    (hhint : w hint.r = 1) (hspc : w sp.r = 1)
    (xs : List CellWithMetadata) (lastCell : CellWithMetadata)
    (hl : xs.getLast? = some lastCell) (h1 : 1 ≤ w lastCell.r) :
    cellsWidth w ((if 1 < w lastCell.r
        then xs.set (xs.length - 1) sp ++ [sp] else xs).set
      ((if 1 < w lastCell.r then xs.set (xs.length - 1) sp ++ [sp] else xs).length - 1)
      hint) ≤ cellsWidth w xs := by
  have hne : xs ≠ [] := by
    intro hnil
    rw [hnil] at hl
    exact Option.noConfusion hl
  have hlen1 : 1 ≤ xs.length := by
    rcases xs with _ | ⟨b, bs⟩
    · exact absurd rfl hne
    · simp
  have hgetD : xs.getD (xs.length - 1) sp = lastCell := by
    rw [List.getD_eq_getElem?_getD, ← List.getLast?_eq_getElem?, hl]
    rfl
  by_cases hwide : 1 < w lastCell.r
  · rw [if_pos hwide]
    have hset := cellsWidth_set w xs (xs.length - 1) sp sp (by omega)
    rw [hgetD] at hset
    have hlenapp : (xs.set (xs.length - 1) sp ++ [sp]).length - 1
        = (xs.set (xs.length - 1) sp).length := by
      simp
    rw [hlenapp, set_append_length, cellsWidth_append, cellsWidth_cons,
      show cellsWidth w ([] : List CellWithMetadata) = 0 from rfl]
    omega
  · rw [if_neg hwide]
    have hset := cellsWidth_set w xs (xs.length - 1) hint sp (by omega)
    rw [hgetD] at hset
    omega

/-- The hidden-rune filter as a left-to-right walk carrying the
previous rune. -/
def visChain (w : Char → Nat) : Option StyledRune → List StyledRune → List StyledRune
  | _, [] => []
  | none, r :: rs => r :: visChain w (some r) rs
  | some p, r :: rs => (if w p.r = 2 then [] else [r]) ++ visChain w (some r) rs

/-- The zip-with-predecessor filter of the spec computes the walk. -/
theorem visibleCellsSpec_chain (w : Char → Nat) :
    ∀ (rs : List StyledRune) (p : Option StyledRune),
      ((rs.zip (p :: rs.map some)).filter fun q =>
        match q.2 with
        | none => true
        | some prev => w prev.r ≠ 2).map Prod.fst = visChain w p rs := by
  intro rs
  induction rs with
  | nil =>
    intro p
    rcases p with _ | prev <;> rfl
  | cons r rs ih =>
    intro p
    rw [List.map_cons, List.zip_cons_cons]
    rcases p with _ | prev
    · rw [List.filter_cons_of_pos (by rfl), List.map_cons, ih (some r)]
      rfl
    · by_cases h2 : w prev.r = 2
      · rw [List.filter_cons_of_neg (by simp [h2]), ih (some r)]
        simp [visChain, h2]
      · rw [List.filter_cons_of_pos (by simp [h2]), List.map_cons, ih (some r)]
        simp [visChain, h2]

/-- The index-based hidden-rune loop computes the walk, for a tail with
an explicit predecessor. -/
theorem withoutHiddenRunes_chain (w : Char → Nat) :
    ∀ (rs : List StyledRune) (p : StyledRune),
      ((List.range rs.length).filterMap fun i =>
        if w (((p :: rs).getD i (newStyledRune ' ' styleDefault)).r) = 2 then none
        else rs[i]?) = visChain w (some p) rs := by
  intro rs
  induction rs with
  | nil => intro p; rfl
  | cons r rs ih =>
    intro p
    rw [List.length_cons, List.range_succ_eq_map, List.filterMap_cons,
      List.filterMap_map]
    have hcomp : ((fun i =>
        if w (((p :: r :: rs).getD i (newStyledRune ' ' styleDefault)).r) = 2 then none
        else (r :: rs)[i]?) ∘ Nat.succ)
        = fun i =>
        if w (((r :: rs).getD i (newStyledRune ' ' styleDefault)).r) = 2 then none
        else rs[i]? := by
      funext i
      simp [Function.comp]
    rw [hcomp, ih r]
    by_cases h2 : w p.r = 2
    · simp [visChain, h2]
    · simp [visChain, h2]

/-- withoutHiddenRunes computes exactly the cells the spec keeps. -/
theorem withoutHiddenRunes_eq_spec (w : Char → Nat) (runes : List StyledRune) :
    withoutHiddenRunes w runes = visibleCellsSpec w runes := by
  rcases runes with _ | ⟨r, rs⟩
  · rfl
  · rw [withoutHiddenRunes, visibleCellsSpec, visibleCellsSpec_chain]
    rw [List.length_cons, List.range_succ_eq_map, List.filterMap_cons,
      List.filterMap_map]
    have hcomp : ((fun i =>
        if 0 < i ∧ w (((r :: rs).getD (i - 1) (newStyledRune ' ' styleDefault)).r) = 2
          then none
        else (r :: rs)[i]?) ∘ Nat.succ)
        = fun i =>
        if w (((r :: rs).getD i (newStyledRune ' ' styleDefault)).r) = 2 then none
        else rs[i]? := by
      funext i
      simp [Function.comp]
    rw [hcomp, withoutHiddenRunes_chain w rs r]
    simp [visChain]

/-- The scroll-indicator decoration tail of decorateLine keeps any row
that already fits the screen within the screen width. -/
theorem decorateTail_width (w : Char → Nat) (hintL hintR : CellWithMetadata)
    (hhl : w hintL.r = 1) (hhr : w hintR.r = 1) (hsp : w ' ' = 1)
    (hnul : w (Char.ofNat 0) ≤ 1)
    (screenWidth leftColumnZeroBased : Nat) (hsw : 1 ≤ screenWidth)
    (contents E row : List CellWithMetadata)
    (hWE : cellsWidth w E ≤ screenWidth)
    (hokE : ∀ e ∈ E, 1 ≤ w e.r)
    (csrS : Bool)
    (h : (if csrS = true then
        match (if 0 < leftColumnZeroBased ∧ contents ≠ [] then
        (if 1 < w (((if E = [] then [(⟨Char.ofNat 0, {}, false⟩ : CellWithMetadata)] else E).headD (⟨Char.ofNat 0, {}, false⟩ : CellWithMetadata)).r) then
          (⟨' ', hintL.style, false⟩ : CellWithMetadata) :: (if E = [] then [(⟨Char.ofNat 0, {}, false⟩ : CellWithMetadata)] else E).set 0 (⟨' ', hintL.style, false⟩ : CellWithMetadata)
        else (if E = [] then [(⟨Char.ofNat 0, {}, false⟩ : CellWithMetadata)] else E)).set 0 hintL
      else E).getLast? with
        | none => none
        | some lastCell =>
          some ((if 1 < w lastCell.r then
            (if 0 < leftColumnZeroBased ∧ contents ≠ [] then
        (if 1 < w (((if E = [] then [(⟨Char.ofNat 0, {}, false⟩ : CellWithMetadata)] else E).headD (⟨Char.ofNat 0, {}, false⟩ : CellWithMetadata)).r) then
          (⟨' ', hintL.style, false⟩ : CellWithMetadata) :: (if E = [] then [(⟨Char.ofNat 0, {}, false⟩ : CellWithMetadata)] else E).set 0 (⟨' ', hintL.style, false⟩ : CellWithMetadata)
        else (if E = [] then [(⟨Char.ofNat 0, {}, false⟩ : CellWithMetadata)] else E)).set 0 hintL
      else E).set ((if 0 < leftColumnZeroBased ∧ contents ≠ [] then
        (if 1 < w (((if E = [] then [(⟨Char.ofNat 0, {}, false⟩ : CellWithMetadata)] else E).headD (⟨Char.ofNat 0, {}, false⟩ : CellWithMetadata)).r) then
          (⟨' ', hintL.style, false⟩ : CellWithMetadata) :: (if E = [] then [(⟨Char.ofNat 0, {}, false⟩ : CellWithMetadata)] else E).set 0 (⟨' ', hintL.style, false⟩ : CellWithMetadata)
        else (if E = [] then [(⟨Char.ofNat 0, {}, false⟩ : CellWithMetadata)] else E)).set 0 hintL
      else E).length - 1) (⟨' ', hintR.style, false⟩ : CellWithMetadata) ++ [(⟨' ', hintR.style, false⟩ : CellWithMetadata)]
          else (if 0 < leftColumnZeroBased ∧ contents ≠ [] then
        (if 1 < w (((if E = [] then [(⟨Char.ofNat 0, {}, false⟩ : CellWithMetadata)] else E).headD (⟨Char.ofNat 0, {}, false⟩ : CellWithMetadata)).r) then
          (⟨' ', hintL.style, false⟩ : CellWithMetadata) :: (if E = [] then [(⟨Char.ofNat 0, {}, false⟩ : CellWithMetadata)] else E).set 0 (⟨' ', hintL.style, false⟩ : CellWithMetadata)
        else (if E = [] then [(⟨Char.ofNat 0, {}, false⟩ : CellWithMetadata)] else E)).set 0 hintL
      else E)).set
            ((if 1 < w lastCell.r then
            (if 0 < leftColumnZeroBased ∧ contents ≠ [] then
        (if 1 < w (((if E = [] then [(⟨Char.ofNat 0, {}, false⟩ : CellWithMetadata)] else E).headD (⟨Char.ofNat 0, {}, false⟩ : CellWithMetadata)).r) then
          (⟨' ', hintL.style, false⟩ : CellWithMetadata) :: (if E = [] then [(⟨Char.ofNat 0, {}, false⟩ : CellWithMetadata)] else E).set 0 (⟨' ', hintL.style, false⟩ : CellWithMetadata)
        else (if E = [] then [(⟨Char.ofNat 0, {}, false⟩ : CellWithMetadata)] else E)).set 0 hintL
      else E).set ((if 0 < leftColumnZeroBased ∧ contents ≠ [] then
        (if 1 < w (((if E = [] then [(⟨Char.ofNat 0, {}, false⟩ : CellWithMetadata)] else E).headD (⟨Char.ofNat 0, {}, false⟩ : CellWithMetadata)).r) then
          (⟨' ', hintL.style, false⟩ : CellWithMetadata) :: (if E = [] then [(⟨Char.ofNat 0, {}, false⟩ : CellWithMetadata)] else E).set 0 (⟨' ', hintL.style, false⟩ : CellWithMetadata)
        else (if E = [] then [(⟨Char.ofNat 0, {}, false⟩ : CellWithMetadata)] else E)).set 0 hintL
      else E).length - 1) (⟨' ', hintR.style, false⟩ : CellWithMetadata) ++ [(⟨' ', hintR.style, false⟩ : CellWithMetadata)]
          else (if 0 < leftColumnZeroBased ∧ contents ≠ [] then
        (if 1 < w (((if E = [] then [(⟨Char.ofNat 0, {}, false⟩ : CellWithMetadata)] else E).headD (⟨Char.ofNat 0, {}, false⟩ : CellWithMetadata)).r) then
          (⟨' ', hintL.style, false⟩ : CellWithMetadata) :: (if E = [] then [(⟨Char.ofNat 0, {}, false⟩ : CellWithMetadata)] else E).set 0 (⟨' ', hintL.style, false⟩ : CellWithMetadata)
        else (if E = [] then [(⟨Char.ofNat 0, {}, false⟩ : CellWithMetadata)] else E)).set 0 hintL
      else E)).length - 1) hintR)
      else some (if 0 < leftColumnZeroBased ∧ contents ≠ [] then
        (if 1 < w (((if E = [] then [(⟨Char.ofNat 0, {}, false⟩ : CellWithMetadata)] else E).headD (⟨Char.ofNat 0, {}, false⟩ : CellWithMetadata)).r) then
          (⟨' ', hintL.style, false⟩ : CellWithMetadata) :: (if E = [] then [(⟨Char.ofNat 0, {}, false⟩ : CellWithMetadata)] else E).set 0 (⟨' ', hintL.style, false⟩ : CellWithMetadata)
        else (if E = [] then [(⟨Char.ofNat 0, {}, false⟩ : CellWithMetadata)] else E)).set 0 hintL
      else E)) = some row) :
    cellsWidth w row ≤ screenWidth := by
  by_cases hlb : 0 < leftColumnZeroBased ∧ contents ≠ []
  · rw [if_pos hlb] at h
    by_cases hE : E = []
    · subst hE
      rw [if_pos (show ([] : List CellWithMetadata) = [] from rfl)] at h
      simp only [List.headD_cons] at h
      have hnw : ¬ (1 < w ((⟨Char.ofNat 0, {}, false⟩ : CellWithMetadata)).r) := by
        show ¬ (1 < w (Char.ofNat 0))
        omega
      rw [if_neg hnw, List.set_cons_zero] at h
      cases csrS
      · rw [if_neg Bool.false_ne_true] at h
        replace h := Option.some_inj.mp h
        subst h
        rw [cellsWidth_cons, hhl,
          show cellsWidth w ([] : List CellWithMetadata) = 0 from rfl]
        omega
      · rw [if_pos (show (true = true) from rfl), List.getLast?_singleton] at h
        simp only at h
        have hnw2 : ¬ (1 < w hintL.r) := by omega
        rw [if_neg hnw2] at h
        simp only [List.length_singleton, Nat.sub_self, List.set_cons_zero] at h
        replace h := Option.some_inj.mp h
        subst h
        rw [cellsWidth_cons, hhr,
          show cellsWidth w ([] : List CellWithMetadata) = 0 from rfl]
        omega
    · rw [if_neg hE] at h
      have hLB := leftBlock_width w hintL (⟨' ', hintL.style, false⟩ : CellWithMetadata)
        (⟨Char.ofNat 0, {}, false⟩ : CellWithMetadata) hhl hsp E hE hokE
      obtain ⟨hLBw, hLBok, hLBne⟩ := hLB
      generalize hLBg : ((if 1 < w ((E.headD (⟨Char.ofNat 0, {}, false⟩ : CellWithMetadata)).r)
          then (⟨' ', hintL.style, false⟩ : CellWithMetadata)
            :: E.set 0 (⟨' ', hintL.style, false⟩ : CellWithMetadata)
          else E).set 0 hintL) = LB at h hLBw hLBok hLBne
      cases csrS
      · rw [if_neg Bool.false_ne_true] at h
        replace h := Option.some_inj.mp h
        subst h
        exact le_trans hLBw hWE
      · rw [if_pos (show (true = true) from rfl)] at h
        rcases hlast : LB.getLast? with _ | last
        · rw [hlast] at h
          exact Option.noConfusion h
        · rw [hlast] at h
          simp only at h
          have h1 : 1 ≤ w last.r := hLBok last (mem_of_getLast?_cells LB last hlast)
          replace h := Option.some_inj.mp h
          subst h
          exact le_trans (rightBlock_width w hintR
            (⟨' ', hintR.style, false⟩ : CellWithMetadata) hhr hsp LB last hlast h1)
            (le_trans hLBw hWE)
  · rw [if_neg hlb] at h
    cases csrS
    · rw [if_neg Bool.false_ne_true] at h
      replace h := Option.some_inj.mp h
      subst h
      exact hWE
    · rw [if_pos (show (true = true) from rfl)] at h
      rcases hlast : E.getLast? with _ | last
      · rw [hlast] at h
        exact Option.noConfusion h
      · rw [hlast] at h
        simp only at h
        have h1 : 1 ≤ w last.r := hokE last (mem_of_getLast?_cells E last hlast)
        replace h := Option.some_inj.mp h
        subst h
        exact le_trans (rightBlock_width w hintR
          (⟨' ', hintR.style, false⟩ : CellWithMetadata) hhr hsp E last hlast h1) hWE

/-- C2: for an input line of single- and double-width runes, with a
single-width blank, line-number glyphs and scroll hints, a zero-width-or-
narrow NUL, a gutter no wider than the screen, and no gutter while
scrolled right, every row decorateLine returns fits the screen width;
and withoutHiddenRunes keeps exactly the cells not preceded by a
double-width rune, so no hidden cell is rendered. -/
theorem C2_decorateLine_row_width (w : Char → Nat)
    (scrollLeftHint scrollRightHint : CellWithMetadata)
    (screenWidth leftColumnZeroBased : Nat)
    (lineNumberToShow : Option Nat) (numberPrefixLength : Nat)
    (contents row : List CellWithMetadata) (runes : List StyledRune)
    (hw : ∀ c ∈ contents, w c.r = 1 ∨ w c.r = 2)
    (hsp : w ' ' = 1)
    (hdig : ∀ (n : Nat), ∀ c ∈ formatNumber n, w c = 1)
    (hnul : w (Char.ofNat 0) ≤ 1)
    (hhl : w scrollLeftHint.r = 1) (hhr : w scrollRightHint.r = 1)
    (hsw : 1 ≤ screenWidth)
    (hpl : numberPrefixLength ≤ screenWidth)
    (hgut : 0 < leftColumnZeroBased → numberPrefixLength = 0)
    (h : decorateLine w scrollLeftHint scrollRightHint screenWidth
      leftColumnZeroBased lineNumberToShow numberPrefixLength contents = some row) :
    cellsWidth w row ≤ screenWidth ∧
      withoutHiddenRunes w runes = visibleCellsSpec w runes := by
  refine ⟨?_, withoutHiddenRunes_eq_spec w runes⟩
  rw [decorateLine.eq_def] at h
  rcases hpfx : createLinePfx lineNumberToShow numberPrefixLength with _ | pfxCells
  · rw [hpfx] at h
    exact Option.noConfusion h
  · rw [hpfx] at h
    simp only at h
    have hpw := createLinePfx_facts w hsp hdig lineNumberToShow numberPrefixLength
      pfxCells hpfx
    have hc0 : ((colAt w numberPrefixLength contents 0 : Nat) : Int)
        = (numberPrefixLength : Int) := by
      simp [colAt, cellsWidth]
    have hpost := decorateScan_post w contents leftColumnZeroBased numberPrefixLength
      ((leftColumnZeroBased : Int) + (screenWidth : Int) - 1) contents.length 0
      none (-1) false (by omega)
      (fun _ => ⟨rfl, rfl, fun j hj => absurd hj (Nat.not_lt_zero j)⟩)
      (fun f hf => Option.noConfusion hf)
    rw [hc0] at hpost
    rcases hS : decorateScan w contents leftColumnZeroBased
        ((leftColumnZeroBased : Int) + (screenWidth : Int) - 1) 0
        (numberPrefixLength : Int) none (-1) false with ⟨fvS, lvS, clS, crS, csrS⟩
    rw [hS] at hpost h
    obtain ⟨Pnone, Psome⟩ := hpost
    simp only at Pnone Psome h
    rcases fvS with _ | f
    · have hall := Pnone rfl
      injection hall with e1 e2 e3 e4 e5
      subst e2
      subst e3
      subst e4
      subst e5
      simp only at h
      refine decorateTail_width w scrollLeftHint scrollRightHint hhl hhr hsp hnul
        screenWidth leftColumnZeroBased hsw contents _ row ?_ ?_ false h
      · rw [if_neg Bool.false_ne_true, if_neg Bool.false_ne_true, cellsWidth_append,
          show cellsWidth w ([] : List CellWithMetadata) = 0 from rfl]
        omega
      · rw [if_neg Bool.false_ne_true, if_neg Bool.false_ne_true]
        intro e he
        rcases List.mem_append.mp he with he | he
        · have := hpw.2 e he
          omega
        · exact absurd he (List.not_mem_nil e)
    · obtain ⟨hflen, hcolf, hfirst, hclc, hPneg, hPpos⟩ := Psome f rfl
      simp only at h
      have hcol0N : colAt w numberPrefixLength contents 0 = numberPrefixLength := by
        simp [colAt, cellsWidth]
      have hfpl : numberPrefixLength ≤ colAt w numberPrefixLength contents f := by
        rw [colAt]
        exact Nat.le_add_right _ _
      have hgut' : leftColumnZeroBased = 0 ∨ numberPrefixLength = 0 := by
        rcases Nat.eq_zero_or_pos leftColumnZeroBased with h0 | h0
        · exact Or.inl h0
        · exact Or.inr (hgut h0)
      have hsplf : w ((⟨' ', scrollLeftHint.style, false⟩ : CellWithMetadata)).r = 1 := hsp
      have hspr : w ((⟨' ', scrollRightHint.style, false⟩ : CellWithMetadata)).r = 1 := hsp
      by_cases hlvsgn : 0 ≤ lvS
      · obtain ⟨hfle, hLlen, hcole, hcut⟩ := hPpos hlvsgn
        rw [show (lvS + 1).toNat = lvS.toNat + 1 from by omega] at h
        simp only [goSlice] at h
        rw [if_pos (show f ≤ lvS.toNat + 1 ∧ lvS.toNat + 1 ≤ contents.length from
          ⟨by omega, by omega⟩)] at h
        simp only at h
        have hvisw := colAt_slice w numberPrefixLength contents f (lvS.toNat + 1)
          (by omega)
        have hvisok : ∀ e ∈ (contents.drop f).take (lvS.toNat + 1 - f), 1 ≤ w e.r := by
          intro e he
          have := hw e (List.mem_of_mem_drop (List.mem_of_mem_take he))
          omega
        have hclD : clS = false ∨ (clS = true ∧ 1 ≤ f ∧
            (leftColumnZeroBased : Int) < (colAt w numberPrefixLength contents f : Int) ∧
            (numberPrefixLength : Int) < (leftColumnZeroBased : Int)) := by
          cases clS
          · exact Or.inl rfl
          · refine Or.inr ⟨rfl, (hclc rfl).1, (hclc rfl).2, ?_⟩
            have h0f := hfirst 0 (by have := (hclc rfl).1; omega)
            rw [hcol0N] at h0f
            exact h0f
        refine decorateTail_width w scrollLeftHint scrollRightHint hhl hhr hsp hnul
          screenWidth leftColumnZeroBased hsw contents _ row ?_ ?_ csrS h
        · rcases hclD with hcl0 | ⟨hcl1, hclf1, hclf2, hclf3⟩
          · subst hcl0
            cases crS
            · rw [if_neg Bool.false_ne_true, if_neg Bool.false_ne_true,
                cellsWidth_append]
              omega
            · have hcrc := hcut rfl
              rw [if_pos (show (true = true) from rfl), if_neg Bool.false_ne_true,
                cellsWidth_append, cellsWidth_append, cellsWidth_cons,
                show cellsWidth w ([] : List CellWithMetadata) = 0 from rfl]
              omega
          · subst hcl1
            cases crS
            · rw [if_neg Bool.false_ne_true, if_pos (show (true = true) from rfl),
                cellsWidth_append, cellsWidth_cons]
              omega
            · have hcrc := hcut rfl
              rw [if_pos (show (true = true) from rfl),
                if_pos (show (true = true) from rfl),
                cellsWidth_append, cellsWidth_append, cellsWidth_cons, cellsWidth_cons,
                show cellsWidth w ([] : List CellWithMetadata) = 0 from rfl]
              omega
        · cases clS
          · cases crS
            · rw [if_neg Bool.false_ne_true, if_neg Bool.false_ne_true]
              intro e he
              rcases List.mem_append.mp he with he | he
              · have := hpw.2 e he
                omega
              · exact hvisok e he
            · rw [if_pos (show (true = true) from rfl), if_neg Bool.false_ne_true]
              intro e he
              rcases List.mem_append.mp he with he | he
              · rcases List.mem_append.mp he with he | he
                · have := hpw.2 e he
                  omega
                · exact hvisok e he
              · rcases List.mem_cons.mp he with rfl | he
                · omega
                · exact absurd he (List.not_mem_nil e)
          · cases crS
            · rw [if_neg Bool.false_ne_true, if_pos (show (true = true) from rfl)]
              intro e he
              rcases List.mem_append.mp he with he | he
              · rcases List.mem_cons.mp he with rfl | he
                · omega
                · have := hpw.2 e he
                  omega
              · exact hvisok e he
            · rw [if_pos (show (true = true) from rfl),
                if_pos (show (true = true) from rfl)]
              intro e he
              rcases List.mem_append.mp he with he | he
              · rcases List.mem_append.mp he with he | he
                · rcases List.mem_cons.mp he with rfl | he
                  · omega
                  · have := hpw.2 e he
                    omega
                · exact hvisok e he
              · rcases List.mem_cons.mp he with rfl | he
                · omega
                · exact absurd he (List.not_mem_nil e)
      · obtain ⟨hlvm1, hcutf⟩ := hPneg (by omega)
        subst hlvm1
        rw [show ((-1 : Int) + 1).toNat = 0 from by decide] at h
        simp only [goSlice] at h
        by_cases hf0 : f = 0
        · subst hf0
          rw [if_pos (show 0 ≤ 0 ∧ 0 ≤ contents.length from ⟨le_refl 0, Nat.zero_le _⟩)]
            at h
          simp only [Nat.sub_self, List.drop_zero, List.take_zero] at h
          have hclF : clS = false := by
            cases clS
            · rfl
            · exact absurd ((hclc rfl).1) (by omega)
          subst hclF
          refine decorateTail_width w scrollLeftHint scrollRightHint hhl hhr hsp hnul
            screenWidth leftColumnZeroBased hsw contents _ row ?_ ?_ csrS h
          · cases crS
            · rw [if_neg Bool.false_ne_true, if_neg Bool.false_ne_true,
                cellsWidth_append,
                show cellsWidth w ([] : List CellWithMetadata) = 0 from rfl]
              omega
            · have hcr0 := hcutf rfl
              rw [hcol0N] at hcr0
              rw [if_pos (show (true = true) from rfl), if_neg Bool.false_ne_true,
                cellsWidth_append, cellsWidth_append, cellsWidth_cons,
                show cellsWidth w ([] : List CellWithMetadata) = 0 from rfl]
              omega
          · cases crS
            · rw [if_neg Bool.false_ne_true, if_neg Bool.false_ne_true]
              intro e he
              rcases List.mem_append.mp he with he | he
              · have := hpw.2 e he
                omega
              · exact absurd he (List.not_mem_nil e)
            · rw [if_pos (show (true = true) from rfl), if_neg Bool.false_ne_true]
              intro e he
              rcases List.mem_append.mp he with he | he
              · rcases List.mem_append.mp he with he | he
                · have := hpw.2 e he
                  omega
                · exact absurd he (List.not_mem_nil e)
              · rcases List.mem_cons.mp he with rfl | he
                · omega
                · exact absurd he (List.not_mem_nil e)
        · rw [if_neg (show ¬ (f ≤ 0 ∧ 0 ≤ contents.length) from
            fun hc => hf0 (by omega))] at h
          exact Option.noConfusion h

/-- C2 counterexample: with a two-column line-number gutter on a
one-column screen, decorateLine returns a two-blank row whose display
width 2 exceeds the configured screen width 1, so the claim's bound
fails for some gutter width and screen size. -/
theorem C2_counterexample :
    decorateLine (fun _ => 1) ⟨'<', {}, false⟩ ⟨'>', {}, false⟩ 1 0 none 2 []
      = some [⟨' ', {}, false⟩, ⟨' ', {}, false⟩] ∧
    cellsWidth (fun _ => 1) [⟨' ', {}, false⟩, ⟨' ', {}, false⟩] = 2 :=
  ⟨by simp [decorateLine, decorateScan_eq, createLinePfx, goSlice, List.replicate],
    rfl⟩

/-- C2 witness: the amended width bound at a concrete screen. -/
theorem C2_decorateLine_row_width_witness :
    cellsWidth (fun _ => 1) [(⟨' ', {}, false⟩ : CellWithMetadata)] ≤ 2 ∧
      withoutHiddenRunes (fun _ => 1) [] = visibleCellsSpec (fun _ => 1) [] :=
  C2_decorateLine_row_width (fun _ => 1) ⟨'>', {}, false⟩ ⟨'>', {}, false⟩ 2 0 none 1
    [] [⟨' ', {}, false⟩] []
    (fun c hc => absurd hc (List.not_mem_nil c))
    rfl
    (fun _ _ _ => rfl)
    (by decide)
    rfl
    rfl
    (by decide)
    (by decide)
    (fun hc => absurd hc (by decide))
    (by simp [decorateLine, decorateScan_eq, createLinePfx, goSlice, List.replicate])

/-! ## Serializing a screen row (twin renderLine / showNLines)

Style.RenderUpdateFrom and twin.Printable live outside the excerpt, so
the SGR serializer enters as a function ru : GoStyle → GoStyle → List
Char (the terminal color count is folded into it) and printability as a
predicate on runes. -/

/-- Embeds the trailing-whitespace strip loop of renderLine, walking the
row from its end (the argument list is the reversed row): how many cells
are stripped, and the trailer background the loop settles on. -/
def stripTrailer (trailerBg : GoColor) (trailerBgSet : Bool) :
    List StyledRune → Nat × GoColor
  | [] => (0, trailerBg)
  | lastCell :: rest =>
    if lastCell.r ≠ ' ' then (0, trailerBg)
    else if lastCell.style.hasAttr attrReverse ∧ lastCell.style.fg = GoColor.default then
      (0, trailerBg)
    else
      let whiteSpaceBg := if lastCell.style.hasAttr attrReverse then lastCell.style.fg
        else lastCell.style.bg
      let trailerBg' := if trailerBgSet then trailerBg else whiteSpaceBg
      if whiteSpaceBg ≠ trailerBg' then (0, trailerBg')
      else
        let tail := stripTrailer trailerBg' true rest
        (tail.1 + 1, tail.2)

/-- Embeds the cell loop of renderLine: SGR updates on style changes,
unprintable runes shown as a bold white-on-red question mark; returns
the emitted characters and the final lastStyle. -/
def renderCells (ru : GoStyle → GoStyle → List Char) (printable : Char → Bool) :
    GoStyle → List StyledRune → List Char × GoStyle
  | lastStyle, [] => ([], lastStyle)
  | lastStyle, cell :: rest =>
    let style := if printable cell.r then cell.style
      else ⟨GoColor.c16 7, GoColor.c16 1, attrBold, none⟩
    let runeToWrite := if printable cell.r then cell.r else '?'
    let pre := if style ≠ lastStyle then ru style lastStyle else []
    let next := renderCells ru printable (if style ≠ lastStyle then style else lastStyle)
      rest
    (pre ++ runeToWrite :: next.1, next.2)

/-- Everything renderLine writes before the clear-to-end-of-line
decision: the initial style reset, the cell loop, and the hyperlink
reset; returns the builder content and the final lastStyle. -/
def renderLineBase (ru : GoStyle → GoStyle → List Char) (printable : Char → Bool)
    (row2 : List StyledRune) : List Char × GoStyle :=
  let body := renderCells ru printable styleDefault row2
  let lastStyleMinusHyperlink := body.2.withHyperlink none
  if lastStyleMinusHyperlink ≠ body.2 then
    (("\x1b[m".data ++ body.1) ++ ru lastStyleMinusHyperlink body.2,
      lastStyleMinusHyperlink)
  else (("\x1b[m".data ++ body.1), body.2)

/-- Embeds twin renderLine: hidden runes dropped, the trailing
same-background whitespace run stripped, the remainder serialized, and a
clear-to-end-of-line sequence carrying the trailer background appended
exactly when the stripped row is narrower than the screen.  Returns the
serialized row and how many cells went into it. -/
def renderLine (w : Char → Nat) (ru : GoStyle → GoStyle → List Char)
    (printable : Char → Bool) (row : List StyledRune) (width : Nat) :
    List Char × Nat :=
  let row1 := withoutHiddenRunes w row
  let strip := stripTrailer GoColor.default false row1.reverse
  let row2 := row1.take (row1.length - strip.1)
  let base := renderLineBase ru printable row2
  if row2.length < width then
    (base.1 ++ ru (styleDefault.withBackground strip.2) base.2 ++ "\x1b[K".data,
      row2.length)
  else (base.1, row2.length)

/-- Embeds UnixScreen.showNLines: optional home-cursor prefix, then each
row's serialization, with a CRLF after every row that is not the last
one (subject to the always-true line-length test). -/
def showNLines (w : Char → Nat) (ru : GoStyle → GoStyle → List Char)
    (printable : Char → Bool) (screen : UnixScreen) (width height : Nat)
    (clearFirst : Bool) : List Char :=
  (if clearFirst then "\x1b[1;1H".data else []) ++
    (List.range height).flatMap fun row =>
      (renderLine w ru printable (screen.cells.getD row []) width).1 ++
        (if (renderLine w ru printable (screen.cells.getD row []) width).2
              ≤ (screen.cells.getD row []).length ∧ ¬ (row = height - 1)
          then "\r\n".data else [])

/-- Restates the spec sentence about the trailer: the background a blank
cell shows on screen — its background, or its foreground under reverse
video, undefined (none) under reverse video with the default foreground. -/
def effectiveTrailerBg (cell : StyledRune) : Option GoColor :=
  if cell.style.hasAttr attrReverse then
    (if cell.style.fg = GoColor.default then none else some cell.style.fg)
  else some cell.style.bg

/-- The number of cells renderLine strips from the end of a row. -/
def trailerCount (w : Char → Nat) (row : List StyledRune) : Nat :=
  (stripTrailer GoColor.default false (withoutHiddenRunes w row).reverse).1

/-- The background color renderLine's clear-to-end-of-line carries. -/
def trailerColor (w : Char → Nat) (row : List StyledRune) : GoColor :=
  (stripTrailer GoColor.default false (withoutHiddenRunes w row).reverse).2

/-- The row renderLine serializes after hidden-rune removal and
trailer stripping. -/
def trimmedRow (w : Char → Nat) (row : List StyledRune) : List StyledRune :=
  (withoutHiddenRunes w row).take
    ((withoutHiddenRunes w row).length - trailerCount w row)

/-- Once the trailer background is locked in, the strip loop takes
exactly a maximal run of blanks showing that background. -/
theorem stripTrailer_go_spec (tb : GoColor) :
    ∀ rrow : List StyledRune,
      (∀ c ∈ rrow.take (stripTrailer tb true rrow).1,
          c.r = ' ' ∧ effectiveTrailerBg c = some tb) ∧
      (stripTrailer tb true rrow).2 = tb ∧
      (∀ c, rrow[(stripTrailer tb true rrow).1]? = some c →
          ¬ (c.r = ' ' ∧ effectiveTrailerBg c = some tb)) := by
  intro rrow
  induction rrow with
  | nil =>
    refine ⟨by simp [stripTrailer], rfl, ?_⟩
    intro c hc
    simp [stripTrailer] at hc
  | cons c rest ih =>
    by_cases hsp : c.r = ' '
    · by_cases hrv : c.style.hasAttr attrReverse = true ∧ c.style.fg = GoColor.default
      · refine ⟨?_, ?_, ?_⟩
        · simp [stripTrailer, hsp, hrv]
        · simp [stripTrailer, hsp, hrv]
        · intro c' hc'
          rw [show (stripTrailer tb true (c :: rest)).1 = 0 from by
            simp [stripTrailer, hsp, hrv]] at hc'
          rw [List.getElem?_cons_zero] at hc'
          obtain rfl := Option.some_inj.mp hc'
          intro hcon
          rw [effectiveTrailerBg, if_pos hrv.1, if_pos hrv.2] at hcon
          exact Option.noConfusion hcon.2
      · have hws : effectiveTrailerBg c
            = some (if c.style.hasAttr attrReverse then c.style.fg else c.style.bg) := by
          rw [effectiveTrailerBg]
          by_cases hr : c.style.hasAttr attrReverse = true
          · rw [if_pos hr, if_pos hr, if_neg (fun hfg => hrv ⟨hr, hfg⟩)]
          · rw [if_neg hr, if_neg hr]
        by_cases heq : (if c.style.hasAttr attrReverse = true then c.style.fg
            else c.style.bg) = tb
        · have hstep : stripTrailer tb true (c :: rest)
              = ((stripTrailer tb true rest).1 + 1, (stripTrailer tb true rest).2) := by
            simp [stripTrailer, hsp, hrv, heq]
          refine ⟨?_, ?_, ?_⟩
          · rw [hstep]
            intro c' hc'
            simp only [List.take_succ_cons] at hc'
            rcases List.mem_cons.mp hc' with rfl | hc'
            · rw [hws, heq]
              exact ⟨hsp, rfl⟩
            · exact (ih.1) c' hc'
          · rw [hstep]
            exact ih.2.1
          · rw [hstep]
            intro c' hc'
            rw [List.getElem?_cons_succ] at hc'
            exact ih.2.2 c' hc'
        · have hstep : (stripTrailer tb true (c :: rest)).1 = 0 := by
            simp [stripTrailer, hsp, hrv, heq]
          refine ⟨by rw [hstep]; simp, ?_, ?_⟩
          · simp [stripTrailer, hsp, hrv, heq]
          · intro c' hc'
            rw [hstep, List.getElem?_cons_zero] at hc'
            obtain rfl := Option.some_inj.mp hc'
            intro hcon
            rw [hws] at hcon
            exact heq (Option.some_inj.mp hcon.2)
    · have hstep : (stripTrailer tb true (c :: rest)).1 = 0 := by
        simp [stripTrailer, hsp]
      refine ⟨by rw [hstep]; simp, by simp [stripTrailer, hsp], ?_⟩
      intro c' hc'
      rw [hstep, List.getElem?_cons_zero] at hc'
      obtain rfl := Option.some_inj.mp hc'
      intro hcon
      exact hsp hcon.1

/-- The full strip loop takes a maximal run of blanks all showing the
trailer background it returns, which stays the default when nothing is
stripped. -/
theorem stripTrailer_spec (rrow : List StyledRune) :
    (∀ c ∈ rrow.take (stripTrailer GoColor.default false rrow).1,
        c.r = ' ' ∧ effectiveTrailerBg c
          = some (stripTrailer GoColor.default false rrow).2) ∧
    (∀ c, rrow[(stripTrailer GoColor.default false rrow).1]? = some c →
        ¬ (c.r = ' ' ∧ effectiveTrailerBg c
          = some (stripTrailer GoColor.default false rrow).2)) ∧
    ((stripTrailer GoColor.default false rrow).1 = 0 →
        (stripTrailer GoColor.default false rrow).2 = GoColor.default) := by
  rcases rrow with _ | ⟨c, rest⟩
  · refine ⟨by simp [stripTrailer], ?_, fun _ => rfl⟩
    intro c hc
    simp [stripTrailer] at hc
  · by_cases hsp : c.r = ' '
    · by_cases hrv : c.style.hasAttr attrReverse = true ∧ c.style.fg = GoColor.default
      · have hstep : stripTrailer GoColor.default false (c :: rest)
            = (0, GoColor.default) := by
          simp [stripTrailer, hsp, hrv]
        refine ⟨?_, ?_, fun _ => by rw [hstep]⟩
        · rw [hstep]
          simp
        · intro c' hc'
          rw [hstep, List.getElem?_cons_zero] at hc'
          obtain rfl := Option.some_inj.mp hc'
          intro hcon
          rw [effectiveTrailerBg, if_pos hrv.1, if_pos hrv.2] at hcon
          exact Option.noConfusion hcon.2
      · have hws : effectiveTrailerBg c
            = some (if c.style.hasAttr attrReverse = true then c.style.fg
              else c.style.bg) := by
          rw [effectiveTrailerBg]
          by_cases hr : c.style.hasAttr attrReverse = true
          · rw [if_pos hr, if_pos hr, if_neg (fun hfg => hrv ⟨hr, hfg⟩)]
          · rw [if_neg hr, if_neg hr]
        have hstep : stripTrailer GoColor.default false (c :: rest)
            = ((stripTrailer (if c.style.hasAttr attrReverse = true then c.style.fg
                else c.style.bg) true rest).1 + 1,
              (stripTrailer (if c.style.hasAttr attrReverse = true then c.style.fg
                else c.style.bg) true rest).2) := by
          simp [stripTrailer, hsp, hrv]
        have hgo := stripTrailer_go_spec
          (if c.style.hasAttr attrReverse = true then c.style.fg else c.style.bg) rest
        refine ⟨?_, ?_, ?_⟩
        · rw [hstep]
          intro c' hc'
          simp only [List.take_succ_cons] at hc'
          rw [hgo.2.1]
          rcases List.mem_cons.mp hc' with rfl | hc'
          · exact ⟨hsp, hws⟩
          · exact hgo.1 c' hc'
        · rw [hstep]
          intro c' hc'
          rw [List.getElem?_cons_succ] at hc'
          rw [hgo.2.1]
          exact hgo.2.2 c' hc'
        · rw [hstep]
          intro hcon
          exact absurd hcon (by omega)
    · have hstep : stripTrailer GoColor.default false (c :: rest)
          = (0, GoColor.default) := by
        simp [stripTrailer, hsp]
      refine ⟨?_, ?_, fun _ => by rw [hstep]⟩
      · rw [hstep]
        simp
      · intro c' hc'
        rw [hstep, List.getElem?_cons_zero] at hc'
        obtain rfl := Option.some_inj.mp hc'
        intro hcon
        exact hsp hcon.1

/-- Hidden-rune removal never lengthens a row. -/
theorem withoutHiddenRunes_length_le (w : Char → Nat) (runes : List StyledRune) :
    (withoutHiddenRunes w runes).length ≤ runes.length := by
  rw [withoutHiddenRunes]
  have h := List.length_filterMap_le (fun i =>
    if 0 < i ∧ w ((runes.getD (i - 1) (newStyledRune ' ' styleDefault)).r) = 2 then none
    else runes[i]?) (List.range runes.length)
  simpa using h

/-- The cell count renderLine reports never exceeds the input row
length, so showNLines's line-length test always passes. -/
theorem renderLine_lineLength_le (w : Char → Nat) (ru : GoStyle → GoStyle → List Char)
    (printable : Char → Bool) (row : List StyledRune) (width : Nat) :
    (renderLine w ru printable row width).2 ≤ row.length := by
  have h1 := withoutHiddenRunes_length_le w row
  rw [renderLine]
  split
  · simp only [List.length_take]
    omega
  · simp only [List.length_take]
    omega

/-- C8: renderLine strips a maximal trailing run of blanks that all show
the same background as the last cell and appends one clear-to-end-of-line
sequence carrying that background exactly when the stripped row is
narrower than the screen — on every row, the final row included; the
final screen row is special only in that showNLines writes no CRLF after
it. -/
theorem C8_renderLine_trailer (w : Char → Nat) (ru : GoStyle → GoStyle → List Char)
    (printable : Char → Bool) (screen : UnixScreen) (width height : Nat)
    (clearFirst : Bool) (row : List StyledRune) :
    renderLine w ru printable row width
      = ((renderLineBase ru printable (trimmedRow w row)).1
          ++ (if (trimmedRow w row).length < width then
               ru (styleDefault.withBackground (trailerColor w row))
                   (renderLineBase ru printable (trimmedRow w row)).2
                 ++ "\x1b[K".data
             else []),
         (trimmedRow w row).length) ∧
    (∀ c ∈ (withoutHiddenRunes w row).reverse.take (trailerCount w row),
        c.r = ' ' ∧ effectiveTrailerBg c = some (trailerColor w row)) ∧
    (∀ c, (withoutHiddenRunes w row).reverse[trailerCount w row]? = some c →
        ¬ (c.r = ' ' ∧ effectiveTrailerBg c = some (trailerColor w row))) ∧
    (trailerCount w row = 0 → trailerColor w row = GoColor.default) ∧
    showNLines w ru printable screen width height clearFirst
      = (if clearFirst then "\x1b[1;1H".data else [])
        ++ (List.range height).flatMap fun r =>
          (renderLine w ru printable (screen.cells.getD r []) width).1
            ++ (if r = height - 1 then [] else "\r\n".data) := by
  have hspec := stripTrailer_spec ((withoutHiddenRunes w row).reverse)
  refine ⟨?_, ?_, ?_, ?_, ?_⟩
  · by_cases h : (trimmedRow w row).length < width
    · simp only [renderLine, trimmedRow, trailerCount, trailerColor] at h ⊢
      rw [if_pos h, if_pos h, List.append_assoc]
    · simp only [renderLine, trimmedRow, trailerCount, trailerColor] at h ⊢
      rw [if_neg h, if_neg h, List.append_nil]
  · intro c hc
    exact hspec.1 c hc
  · intro c hc
    exact hspec.2.1 c hc
  · exact hspec.2.2
  · rw [showNLines]
    congr 1
    have hfun : (fun r =>
        (renderLine w ru printable (screen.cells.getD r []) width).1 ++
          (if (renderLine w ru printable (screen.cells.getD r []) width).2
                ≤ (screen.cells.getD r []).length ∧ ¬ (r = height - 1)
            then "\r\n".data else []))
        = fun r =>
        (renderLine w ru printable (screen.cells.getD r []) width).1 ++
          (if r = height - 1 then [] else "\r\n".data) := by
      funext r
      congr 1
      have hle := renderLine_lineLength_le w ru printable (screen.cells.getD r []) width
      by_cases hr : r = height - 1
      · rw [if_neg (fun hc => hc.2 hr), if_pos hr]
      · rw [if_pos ⟨hle, hr⟩, if_neg hr]
    rw [hfun]

/-- C8 counterexample: on an all-blank 2x2 screen the FINAL row's
serialization also ends in the clear-to-end-of-line sequence ESC[K, so
the claimed final-row exception does not exist; only the CRLF is
skipped there. -/
theorem C8_counterexample :
    (renderLine (fun _ => 1) (fun _ _ => []) (fun _ => true)
        (List.replicate 2 (newStyledRune ' ' styleDefault)) 2).1
      = "\x1b[m\x1b[K".data ∧
    showNLines (fun _ => 1) (fun _ _ => []) (fun _ => true)
        ⟨2, 2, [List.replicate 2 (newStyledRune ' ' styleDefault),
          List.replicate 2 (newStyledRune ' ' styleDefault)]⟩ 2 2 true
      = "\x1b[1;1H\x1b[m\x1b[K\r\n\x1b[m\x1b[K".data := by
  constructor
  · rfl
  · rfl

end Moor
